import Mathlib

/-!
Verification of the vispy color module (`vispy/color/_color.py`).

The Python code operates on numpy float arrays; we embed it shallowly over
the rationals `ℚ`, with N×k arrays as lists of rows.  Calls that can raise
a Python exception are modelled with `Option` (`none` = the call raises).
Per-record color-space conversions are modelled on one record (`ℚ × ℚ × ℚ`);
the array functions map them over the rows exactly as the Python loops do.
-/

namespace Vispy

/-- Python's `%` on reals with a positive divisor: `x - y * ⌊x / y⌋`. -/
def qmod (x y : ℚ) : ℚ := x - y * ⌊x / y⌋

/-- `np.clip(q, 0, 1)`. -/
def clip01 (q : ℚ) : ℚ := max 0 (min q 1)

theorem qmod_eq (k : ℤ) {x y : ℚ} (hy : 0 < y) (h1 : k * y ≤ x)
    (h2 : x < (k + 1) * y) : qmod x y = x - k * y := by
  have hfl : ⌊x / y⌋ = k := by
    rw [Int.floor_eq_iff]
    constructor
    · rw [le_div_iff₀ hy]; exact_mod_cast h1
    · rw [div_lt_iff₀ hy]; exact h2
  rw [qmod, hfl]; ring

theorem qmod_eq_self {x y : ℚ} (h0 : 0 ≤ x) (h1 : x < y) : qmod x y = x := by
  have hy : 0 < y := lt_of_le_of_lt h0 h1
  have := qmod_eq 0 hy (by simpa using h0) (by simpa using h1)
  simpa using this

theorem qmod_add_self {x y : ℚ} (hy : 0 < y) (h0 : -y ≤ x) (h1 : x < 0) :
    qmod x y = x + y := by
  have := qmod_eq (-1) hy (by push_cast; linarith) (by push_cast; linarith)
  push_cast at this
  linarith [this]

theorem qmod_mem {x y : ℚ} (hy : 0 < y) : 0 ≤ qmod x y ∧ qmod x y < y := by
  have hyne : y ≠ 0 := ne_of_gt hy
  have hq : qmod x y = y * Int.fract (x / y) := by
    rw [qmod, Int.fract, mul_sub, mul_div_cancel₀ _ hyne]
  constructor
  · rw [hq]; exact mul_nonneg (le_of_lt hy) (Int.fract_nonneg _)
  · rw [hq]
    calc y * Int.fract (x / y) < y * 1 :=
          (mul_lt_mul_left hy).mpr (Int.fract_lt_one _)
    _ = y := mul_one y

/-- One record of `_rgb_to_hsv`: `idx = np.argmax(rgb)` (first maximal
channel), `val = rgb[idx]`, `c = val - np.min(rgb)`; for `c = 0` hue and
saturation are 0, otherwise hue is chosen by a 3-way sector selection on
`idx` and scaled by 60, and `sat = c / val`. -/
def rgb_to_hsv1 : ℚ × ℚ × ℚ → ℚ × ℚ × ℚ
  | (r, g, b) =>
    let v := if r ≥ g ∧ r ≥ b then r else if g ≥ b then g else b
    let c := v - min r (min g b)
    if c = 0 then (0, 0, v)
    else
      let hue :=
        if r ≥ g ∧ r ≥ b then qmod ((g - b) / c) 6
        else if g ≥ b then (b - r) / c + 2
        else (r - g) / c + 4
      (60 * hue, c / v, v)

/-- One record of `_hsv_to_rgb`: `c = s*v`, `m = v - c`, `hp = h/60`,
`x = c * (1 - |hp % 2 - 1|)`, sector selection on `hp`, then `+ m` on each
channel. -/
def hsv_to_rgb1 : ℚ × ℚ × ℚ → ℚ × ℚ × ℚ
  | (h, s, v) =>
    let c := s * v
    let m := v - c
    let hp := h / 60
    let x := c * (1 - |qmod hp 2 - 1|)
    let rgb : ℚ × ℚ × ℚ :=
      if 0 ≤ hp ∧ hp < 1 then (c, x, 0)
      else if hp < 2 then (x, c, 0)
      else if hp < 3 then (0, c, x)
      else if hp < 4 then (0, x, c)
      else if hp < 5 then (x, 0, c)
      else (c, 0, x)
    (rgb.1 + m, rgb.2.1 + m, rgb.2.2 + m)

/-! Sector-by-sector evaluation of `hsv_to_rgb1`, driven by the position of
`hp = h / 60` in `[0, 6)`. -/

theorem hsv_eval0 (h s v : ℚ) (h0 : 0 ≤ h / 60) (h1 : h / 60 < 1) :
    hsv_to_rgb1 (h, s, v) = (v, s * v * (h / 60) + (v - s * v), v - s * v) := by
  have hm : qmod (h / 60) 2 = h / 60 := qmod_eq_self h0 (by linarith)
  simp only [hsv_to_rgb1]
  rw [if_pos ⟨h0, h1⟩, hm, abs_of_nonpos (by linarith)]
  simp only [Prod.mk.injEq]
  refine ⟨by ring, by ring, by ring⟩

theorem hsv_eval1 (h s v : ℚ) (h0 : 1 ≤ h / 60) (h1 : h / 60 < 2) :
    hsv_to_rgb1 (h, s, v) =
      (s * v * (2 - h / 60) + (v - s * v), v, v - s * v) := by
  have hm : qmod (h / 60) 2 = h / 60 := qmod_eq_self (by linarith) h1
  simp only [hsv_to_rgb1]
  rw [if_neg (by rintro ⟨-, hc⟩; linarith), if_pos h1, hm,
    abs_of_nonneg (by linarith)]
  simp only [Prod.mk.injEq]
  refine ⟨by ring, by ring, by ring⟩

theorem hsv_eval2 (h s v : ℚ) (h0 : 2 ≤ h / 60) (h1 : h / 60 < 3) :
    hsv_to_rgb1 (h, s, v) =
      (v - s * v, v, s * v * (h / 60 - 2) + (v - s * v)) := by
  have hm : qmod (h / 60) 2 = h / 60 - 2 := by
    have := @qmod_eq 1 (h / 60) 2 (by norm_num) (by push_cast; linarith)
      (by push_cast; linarith)
    simpa using this
  simp only [hsv_to_rgb1]
  rw [if_neg (by rintro ⟨-, hc⟩; linarith), if_neg (by intro hc; linarith),
    if_pos h1, hm, abs_of_nonpos (by linarith)]
  simp only [Prod.mk.injEq]
  refine ⟨by ring, by ring, by ring⟩

theorem hsv_eval3 (h s v : ℚ) (h0 : 3 ≤ h / 60) (h1 : h / 60 < 4) :
    hsv_to_rgb1 (h, s, v) =
      (v - s * v, s * v * (4 - h / 60) + (v - s * v), v) := by
  have hm : qmod (h / 60) 2 = h / 60 - 2 := by
    have := @qmod_eq 1 (h / 60) 2 (by norm_num) (by push_cast; linarith)
      (by push_cast; linarith)
    simpa using this
  simp only [hsv_to_rgb1]
  rw [if_neg (by rintro ⟨-, hc⟩; linarith), if_neg (by intro hc; linarith),
    if_neg (by intro hc; linarith), if_pos h1, hm,
    abs_of_nonneg (by linarith)]
  simp only [Prod.mk.injEq]
  refine ⟨by ring, by ring, by ring⟩

theorem hsv_eval4 (h s v : ℚ) (h0 : 4 ≤ h / 60) (h1 : h / 60 < 5) :
    hsv_to_rgb1 (h, s, v) =
      (s * v * (h / 60 - 4) + (v - s * v), v - s * v, v) := by
  have hm : qmod (h / 60) 2 = h / 60 - 4 := by
    have := @qmod_eq 2 (h / 60) 2 (by norm_num) (by push_cast; linarith)
      (by push_cast; linarith)
    rw [this]; push_cast; ring
  simp only [hsv_to_rgb1]
  rw [if_neg (by rintro ⟨-, hc⟩; linarith), if_neg (by intro hc; linarith),
    if_neg (by intro hc; linarith), if_neg (by intro hc; linarith),
    if_pos h1, hm, abs_of_nonpos (by linarith)]
  simp only [Prod.mk.injEq]
  refine ⟨by ring, by ring, by ring⟩

theorem hsv_eval5 (h s v : ℚ) (h0 : 5 ≤ h / 60) (h1 : h / 60 < 6) :
    hsv_to_rgb1 (h, s, v) =
      (v, v - s * v, s * v * (6 - h / 60) + (v - s * v)) := by
  have hm : qmod (h / 60) 2 = h / 60 - 4 := by
    have := @qmod_eq 2 (h / 60) 2 (by norm_num) (by push_cast; linarith)
      (by push_cast; linarith)
    rw [this]; push_cast; ring
  simp only [hsv_to_rgb1]
  rw [if_neg (by rintro ⟨-, hc⟩; linarith), if_neg (by intro hc; linarith),
    if_neg (by intro hc; linarith), if_neg (by intro hc; linarith),
    if_neg (by intro hc; linarith), hm, abs_of_nonneg (by linarith)]
  simp only [Prod.mk.injEq]
  refine ⟨by ring, by ring, by ring⟩

/-! Evaluation of `rgb_to_hsv1` by the position of the (first) maximal and
minimal channel.  `np.argmax` returns the first maximal index, so the `R`
sector is taken whenever `r` is a (possibly tied) maximum. -/

theorem rgb_eval_rb (r g b : ℚ) (h1 : g ≤ r) (h2 : b ≤ r) (h3 : b ≤ g)
    (h4 : b < r) :
    rgb_to_hsv1 (r, g, b) = (60 * qmod ((g - b) / (r - b)) 6, (r - b) / r, r) := by
  have hA : r ≥ g ∧ r ≥ b := ⟨h1, h2⟩
  simp only [rgb_to_hsv1]
  rw [if_pos hA, min_eq_right h3, min_eq_right h2,
    if_neg (sub_ne_zero.mpr (ne_of_gt h4)), if_pos hA]

theorem rgb_eval_rg (r g b : ℚ) (h1 : g ≤ r) (h2 : b ≤ r) (h3 : g ≤ b)
    (h4 : g < r) :
    rgb_to_hsv1 (r, g, b) = (60 * qmod ((g - b) / (r - g)) 6, (r - g) / r, r) := by
  have hA : r ≥ g ∧ r ≥ b := ⟨h1, h2⟩
  simp only [rgb_to_hsv1]
  rw [if_pos hA, min_eq_left h3, min_eq_right (le_of_lt h4),
    if_neg (sub_ne_zero.mpr (ne_of_gt h4)), if_pos hA]

theorem rgb_eval_gr (r g b : ℚ) (h1 : r < g) (h2 : b ≤ g) (h3 : r ≤ b) :
    rgb_to_hsv1 (r, g, b) = (60 * ((b - r) / (g - r) + 2), (g - r) / g, g) := by
  have hno : ¬(r ≥ g ∧ r ≥ b) := by rintro ⟨hc, -⟩; exact absurd h1 (not_lt.mpr hc)
  have hgB : g ≥ b := h2
  simp only [rgb_to_hsv1]
  rw [if_neg hno, if_pos hgB, min_eq_right h2, min_eq_left h3,
    if_neg (sub_ne_zero.mpr (ne_of_gt h1)), if_neg hno, if_pos hgB]

theorem rgb_eval_gb (r g b : ℚ) (h1 : r < g) (h2 : b ≤ g) (h3 : b ≤ r) :
    rgb_to_hsv1 (r, g, b) = (60 * ((b - r) / (g - b) + 2), (g - b) / g, g) := by
  have hno : ¬(r ≥ g ∧ r ≥ b) := by rintro ⟨hc, -⟩; exact absurd h1 (not_lt.mpr hc)
  have hgb : b < g := lt_of_le_of_lt h3 h1
  have hgB : g ≥ b := h2
  simp only [rgb_to_hsv1]
  rw [if_neg hno, if_pos hgB, min_eq_right h2, min_eq_right h3,
    if_neg (sub_ne_zero.mpr (ne_of_gt hgb)), if_neg hno, if_pos hgB]

theorem rgb_eval_bg (r g b : ℚ) (h1 : g < b) (h2 : r < b) (h3 : g ≤ r) :
    rgb_to_hsv1 (r, g, b) = (60 * ((r - g) / (b - g) + 4), (b - g) / b, b) := by
  have hno : ¬(r ≥ g ∧ r ≥ b) := by rintro ⟨-, hc⟩; exact absurd h2 (not_lt.mpr hc)
  have hno2 : ¬(g ≥ b) := not_le.mpr h1
  simp only [rgb_to_hsv1]
  rw [if_neg hno, if_neg hno2, min_eq_left (le_of_lt h1), min_eq_right h3,
    if_neg (sub_ne_zero.mpr (ne_of_gt h1)), if_neg hno, if_neg hno2]

theorem rgb_eval_br (r g b : ℚ) (h1 : g < b) (h2 : r < b) (h3 : r ≤ g) :
    rgb_to_hsv1 (r, g, b) = (60 * ((r - g) / (b - r) + 4), (b - r) / b, b) := by
  have hno : ¬(r ≥ g ∧ r ≥ b) := by rintro ⟨-, hc⟩; exact absurd h2 (not_lt.mpr hc)
  have hno2 : ¬(g ≥ b) := not_le.mpr h1
  simp only [rgb_to_hsv1]
  rw [if_neg hno, if_neg hno2, min_eq_left (le_of_lt h1), min_eq_left h3,
    if_neg (sub_ne_zero.mpr (ne_of_gt h2)), if_neg hno, if_neg hno2]

theorem rgb_eval_gray (v : ℚ) : rgb_to_hsv1 (v, v, v) = (0, 0, v) := by
  simp [rgb_to_hsv1]

theorem hsv_eval_gray (v : ℚ) : hsv_to_rgb1 (0, 0, v) = (v, v, v) := by
  have h := hsv_eval0 0 0 v (by norm_num) (by norm_num)
  simpa using h

/-! Round-trip helpers: applying `rgb_to_hsv1` to the output shape of each
`hsv_to_rgb1` sector recovers `(60 * hp, s, v)` when `0 < s` and `0 < v`. -/

theorem roundtrip_sector0 (hp s v : ℚ) (h0 : 0 ≤ hp) (h1 : hp < 1)
    (hs0 : 0 < s) (hs1 : s ≤ 1) (hv : 0 < v) :
    rgb_to_hsv1 (v, s * v * hp + (v - s * v), v - s * v) = (60 * hp, s, v) := by
  have hc : 0 < s * v := mul_pos hs0 hv
  have hcv : s * v ≤ v := by nlinarith
  have hx0 : 0 ≤ s * v * hp := by positivity
  have hx1 : s * v * hp ≤ s * v := by nlinarith
  rw [rgb_eval_rb v (s * v * hp + (v - s * v)) (v - s * v)
    (by linarith) (by linarith) (by linarith) (by linarith)]
  have e1 : s * v * hp + (v - s * v) - (v - s * v) = hp * (s * v) := by ring
  have e2 : v - (v - s * v) = s * v := by ring
  rw [e1, e2, mul_div_cancel_right₀ hp (ne_of_gt hc),
    qmod_eq_self h0 (by linarith)]
  have e3 : s * v / v = s := by
    rw [mul_div_assoc, div_self (ne_of_gt hv), mul_one]
  rw [e3]

theorem roundtrip_sector1 (hp s v : ℚ) (h0 : 1 ≤ hp) (h1 : hp < 2)
    (hs0 : 0 < s) (hs1 : s ≤ 1) (hv : 0 < v) :
    rgb_to_hsv1 (s * v * (2 - hp) + (v - s * v), v, v - s * v) =
      (60 * hp, s, v) := by
  have hc : 0 < s * v := mul_pos hs0 hv
  have hcv : s * v ≤ v := by nlinarith
  have hx0 : 0 ≤ s * v * (2 - hp) := by
    apply mul_nonneg (le_of_lt hc); linarith
  have hx1 : s * v * (2 - hp) ≤ s * v := by nlinarith
  have e3 : s * v / v = s := by
    rw [mul_div_assoc, div_self (ne_of_gt hv), mul_one]
  rcases eq_or_lt_of_le h0 with heq | hlt
  · -- hp = 1 : the red and green channels tie, so argmax picks red
    rw [← heq]
    have er : s * v * (2 - 1) + (v - s * v) = v := by ring
    rw [er, rgb_eval_rb v v (v - s * v) le_rfl (by linarith) (by linarith)
      (by linarith)]
    have e1 : v - (v - s * v) = s * v := by ring
    rw [e1, div_self (ne_of_gt hc), qmod_eq_self (by norm_num) (by norm_num),
      e3]
  · -- hp > 1 : green is the strict maximum, blue the minimum
    have hrg : s * v * (2 - hp) + (v - s * v) < v := by nlinarith
    rw [rgb_eval_gb (s * v * (2 - hp) + (v - s * v)) v (v - s * v) hrg
      (by linarith) (by linarith)]
    have e1 : v - s * v - (s * v * (2 - hp) + (v - s * v)) =
        (hp - 2) * (s * v) := by ring
    have e2 : v - (v - s * v) = s * v := by ring
    rw [e1, e2, mul_div_cancel_right₀ _ (ne_of_gt hc), e3]
    simp only [Prod.mk.injEq, and_true, true_and]
    ring

theorem roundtrip_sector2 (hp s v : ℚ) (h0 : 2 ≤ hp) (h1 : hp < 3)
    (hs0 : 0 < s) (hs1 : s ≤ 1) (hv : 0 < v) :
    rgb_to_hsv1 (v - s * v, v, s * v * (hp - 2) + (v - s * v)) =
      (60 * hp, s, v) := by
  have hc : 0 < s * v := mul_pos hs0 hv
  have hcv : s * v ≤ v := by nlinarith
  have hx0 : 0 ≤ s * v * (hp - 2) := by
    apply mul_nonneg (le_of_lt hc); linarith
  have hx1 : s * v * (hp - 2) < s * v := by nlinarith
  have e3 : s * v / v = s := by
    rw [mul_div_assoc, div_self (ne_of_gt hv), mul_one]
  rw [rgb_eval_gr (v - s * v) v (s * v * (hp - 2) + (v - s * v))
    (by linarith) (by linarith) (by linarith)]
  have e1 : s * v * (hp - 2) + (v - s * v) - (v - s * v) =
      (hp - 2) * (s * v) := by ring
  have e2 : v - (v - s * v) = s * v := by ring
  rw [e1, e2, mul_div_cancel_right₀ _ (ne_of_gt hc), e3]
  simp only [Prod.mk.injEq, and_true, true_and]
  ring

theorem roundtrip_sector3 (hp s v : ℚ) (h0 : 3 ≤ hp) (h1 : hp < 4)
    (hs0 : 0 < s) (hs1 : s ≤ 1) (hv : 0 < v) :
    rgb_to_hsv1 (v - s * v, s * v * (4 - hp) + (v - s * v), v) =
      (60 * hp, s, v) := by
  have hc : 0 < s * v := mul_pos hs0 hv
  have hcv : s * v ≤ v := by nlinarith
  have hx0 : 0 < s * v * (4 - hp) := by
    apply mul_pos hc; linarith
  have hx1 : s * v * (4 - hp) ≤ s * v := by nlinarith
  have e3 : s * v / v = s := by
    rw [mul_div_assoc, div_self (ne_of_gt hv), mul_one]
  rcases eq_or_lt_of_le h0 with heq | hlt
  · -- hp = 3 : the green and blue channels tie, argmax picks green
    rw [← heq]
    have eg : s * v * (4 - 3) + (v - s * v) = v := by ring
    rw [eg, rgb_eval_gr (v - s * v) v v (by linarith) le_rfl (by linarith)]
    have e2 : v - (v - s * v) = s * v := by ring
    rw [e2, div_self (ne_of_gt hc), e3]
    norm_num
  · -- hp > 3 : blue is the strict maximum, red the minimum
    have hgb : s * v * (4 - hp) + (v - s * v) < v := by nlinarith
    rw [rgb_eval_br (v - s * v) (s * v * (4 - hp) + (v - s * v)) v hgb
      (by linarith) (by linarith)]
    have e1 : v - s * v - (s * v * (4 - hp) + (v - s * v)) =
        (hp - 4) * (s * v) := by ring
    have e2 : v - (v - s * v) = s * v := by ring
    rw [e1, e2, mul_div_cancel_right₀ _ (ne_of_gt hc), e3]
    simp only [Prod.mk.injEq, and_true, true_and]
    ring

theorem roundtrip_sector4 (hp s v : ℚ) (h0 : 4 ≤ hp) (h1 : hp < 5)
    (hs0 : 0 < s) (hs1 : s ≤ 1) (hv : 0 < v) :
    rgb_to_hsv1 (s * v * (hp - 4) + (v - s * v), v - s * v, v) =
      (60 * hp, s, v) := by
  have hc : 0 < s * v := mul_pos hs0 hv
  have hcv : s * v ≤ v := by nlinarith
  have hx0 : 0 ≤ s * v * (hp - 4) := by
    apply mul_nonneg (le_of_lt hc); linarith
  have hx1 : s * v * (hp - 4) < s * v := by nlinarith
  have e3 : s * v / v = s := by
    rw [mul_div_assoc, div_self (ne_of_gt hv), mul_one]
  rw [rgb_eval_bg (s * v * (hp - 4) + (v - s * v)) (v - s * v) v
    (by linarith) (by linarith) (by linarith)]
  have e1 : s * v * (hp - 4) + (v - s * v) - (v - s * v) =
      (hp - 4) * (s * v) := by ring
  have e2 : v - (v - s * v) = s * v := by ring
  rw [e1, e2, mul_div_cancel_right₀ _ (ne_of_gt hc), e3]
  simp only [Prod.mk.injEq, and_true, true_and]
  ring

theorem roundtrip_sector5 (hp s v : ℚ) (h0 : 5 ≤ hp) (h1 : hp < 6)
    (hs0 : 0 < s) (hs1 : s ≤ 1) (hv : 0 < v) :
    rgb_to_hsv1 (v, v - s * v, s * v * (6 - hp) + (v - s * v)) =
      (60 * hp, s, v) := by
  have hc : 0 < s * v := mul_pos hs0 hv
  have hcv : s * v ≤ v := by nlinarith
  have hx0 : 0 < s * v * (6 - hp) := by
    apply mul_pos hc; linarith
  have hx1 : s * v * (6 - hp) ≤ s * v := by nlinarith
  have e3 : s * v / v = s := by
    rw [mul_div_assoc, div_self (ne_of_gt hv), mul_one]
  rw [rgb_eval_rg v (v - s * v) (s * v * (6 - hp) + (v - s * v))
    (by linarith) (by linarith) (by linarith) (by linarith)]
  have e1 : v - s * v - (s * v * (6 - hp) + (v - s * v)) =
      -((6 - hp) * (s * v)) := by ring
  have e2 : v - (v - s * v) = s * v := by ring
  rw [e1, e2, neg_div, mul_div_cancel_right₀ _ (ne_of_gt hc)]
  have hq : qmod (-(6 - hp)) 6 = -(6 - hp) + 6 :=
    qmod_add_self (by norm_num) (by linarith) (by linarith)
  rw [hq, e3]
  simp only [Prod.mk.injEq, and_true, true_and]
  ring

/-- Exact RGB → HSV → RGB round trip (needs only nonnegative channels). -/
theorem rgb_hsv_rgb_aux (r g b : ℚ) (hr0 : 0 ≤ r) (hg0 : 0 ≤ g)
    (hb0 : 0 ≤ b) : hsv_to_rgb1 (rgb_to_hsv1 (r, g, b)) = (r, g, b) := by
  by_cases hA : r ≥ g ∧ r ≥ b
  · obtain ⟨hg, hb⟩ := hA
    rcases le_total b g with h3 | h3
    · -- r is the (first) max, b the min
      rcases eq_or_lt_of_le hb with heq | hlt
      · -- b = r forces r = g = b (gray)
        have hge : g = r := le_antisymm hg (heq ▸ h3)
        have hbe : b = r := heq
        rw [hge, hbe, rgb_eval_gray, hsv_eval_gray]
      · rw [rgb_eval_rb r g b hg hb h3 hlt]
        have hrb : 0 < r - b := by linarith
        have hr : 0 < r := lt_of_le_of_lt hb0 hlt
        have q0 : 0 ≤ (g - b) / (r - b) := div_nonneg (by linarith) (by linarith)
        have q1 : (g - b) / (r - b) ≤ 1 := (div_le_one hrb).mpr (by linarith)
        rw [qmod_eq_self q0 (by linarith)]
        have hq60 : 60 * ((g - b) / (r - b)) / 60 = (g - b) / (r - b) :=
          mul_div_cancel_left₀ _ (by norm_num)
        have hsvr : (r - b) / r * r = r - b := div_mul_cancel₀ _ (ne_of_gt hr)
        have hne2 : r - b ≠ 0 := ne_of_gt hrb
        rcases lt_or_eq_of_le q1 with hq1 | hq1
        · rw [hsv_eval0 _ _ _ (by rw [hq60]; exact q0) (by rw [hq60]; exact hq1),
            hq60, hsvr]
          have e2 : (r - b) * ((g - b) / (r - b)) = g - b := by
            field_simp
          rw [Prod.mk.injEq, Prod.mk.injEq]
          exact ⟨rfl, by rw [e2]; ring, by ring⟩
        · -- (g-b)/(r-b) = 1, i.e. g = r : hue lands exactly on the second sector
          have hge : g = r := by
            have h := hq1
            field_simp at h
            linarith
          rw [hsv_eval1 _ _ _ (by rw [hq60]; linarith [hq1]) (by rw [hq60]; linarith [hq1]),
            hq60, hsvr, hq1]
          rw [Prod.mk.injEq, Prod.mk.injEq]
          exact ⟨by ring, hge.symm, by ring⟩
    · -- r is the (first) max, g the min
      rcases eq_or_lt_of_le hg with heq | hlt
      · -- g = r forces r = g = b (gray)
        have hbe : b = r := le_antisymm hb (heq ▸ h3)
        have hge : g = r := heq
        rw [hge, hbe, rgb_eval_gray, hsv_eval_gray]
      · rw [rgb_eval_rg r g b hg hb h3 hlt]
        have hrg : 0 < r - g := by linarith
        have hne : r - g ≠ 0 := ne_of_gt hrg
        have hr : 0 < r := lt_of_le_of_lt hg0 hlt
        have q0 : (g - b) / (r - g) ≤ 0 := (div_le_iff₀ hrg).mpr (by linarith)
        have qge : -1 ≤ (g - b) / (r - g) := (le_div_iff₀ hrg).mpr (by linarith)
        have hsvr : (r - g) / r * r = r - g := div_mul_cancel₀ _ (ne_of_gt hr)
        rcases eq_or_lt_of_le h3 with heq3 | hlt3
        · -- g = b : hue is 0
          rw [← heq3, sub_self, zero_div, qmod_eq_self le_rfl (by norm_num)]
          rw [hsv_eval0 _ _ _ (by norm_num) (by norm_num), hsvr]
          rw [Prod.mk.injEq, Prod.mk.injEq]
          exact ⟨rfl, by ring, by ring⟩
        · -- g < b is impossible here (b ≤ g in this branch)... g the min with g < b
          have qneg : (g - b) / (r - g) < 0 := by
            rw [div_lt_iff₀ hrg]; linarith
          rw [qmod_add_self (by norm_num) (by linarith) qneg]
          have hq60 : 60 * ((g - b) / (r - g) + 6) / 60 = (g - b) / (r - g) + 6 :=
            mul_div_cancel_left₀ _ (by norm_num)
          rw [hsv_eval5 _ _ _ (by rw [hq60]; linarith) (by rw [hq60]; linarith),
            hq60, hsvr]
          have e : (r - g) * (6 - ((g - b) / (r - g) + 6)) = b - g := by
            field_simp
          rw [Prod.mk.injEq, Prod.mk.injEq]
          exact ⟨rfl, by ring, by rw [e]; ring⟩
  · -- r is not a maximum
    rcases le_or_lt b g with hBg | hBg
    · -- g is the max (idx = 1)
      have hrg : r < g := by
        rcases not_and_or.mp hA with hc | hc
        · exact not_le.mp hc
        · exact lt_of_lt_of_le (not_le.mp hc) hBg
      have hgpos : 0 < g := lt_of_le_of_lt hr0 hrg
      rcases le_total r b with h3 | h3
      · -- r is the min
        rw [rgb_eval_gr r g b hrg hBg h3]
        have hgr : 0 < g - r := by linarith
        have q0 : 0 ≤ (b - r) / (g - r) := div_nonneg (by linarith) (by linarith)
        have q1 : (b - r) / (g - r) ≤ 1 := (div_le_one hgr).mpr (by linarith)
        have hsvg : (g - r) / g * g = g - r := div_mul_cancel₀ _ (ne_of_gt hgpos)
        have hne2 : g - r ≠ 0 := ne_of_gt hgr
        rcases lt_or_eq_of_le q1 with hq1 | hq1
        · have hq60 : 60 * ((b - r) / (g - r) + 2) / 60 = (b - r) / (g - r) + 2 :=
            mul_div_cancel_left₀ _ (by norm_num)
          rw [hsv_eval2 _ _ _ (by rw [hq60]; linarith) (by rw [hq60]; linarith),
            hq60, hsvg]
          have e : (g - r) * ((b - r) / (g - r) + 2 - 2) = b - r := by
            field_simp
            ring
          rw [Prod.mk.injEq, Prod.mk.injEq]
          exact ⟨by ring, rfl, by rw [e]; ring⟩
        · -- (b-r)/(g-r) = 1, i.e. b = g : hue lands exactly on the third sector
          have hbe : b = g := by
            have h := hq1
            field_simp at h
            linarith
          have hq60 : 60 * ((b - r) / (g - r) + 2) / 60 = (b - r) / (g - r) + 2 :=
            mul_div_cancel_left₀ _ (by norm_num)
          rw [hsv_eval3 _ _ _ (by rw [hq60]; linarith [hq1]) (by rw [hq60]; linarith [hq1]),
            hq60, hsvg, hq1]
          rw [Prod.mk.injEq, Prod.mk.injEq]
          exact ⟨by ring, by ring, hbe.symm⟩
      · -- b is the min
        rw [rgb_eval_gb r g b hrg hBg h3]
        have hgb : 0 < g - b := by linarith
        have hsvg : (g - b) / g * g = g - b := div_mul_cancel₀ _ (ne_of_gt hgpos)
        have hne : g - b ≠ 0 := ne_of_gt hgb
        have hq60 : 60 * ((b - r) / (g - b) + 2) / 60 = (b - r) / (g - b) + 2 :=
          mul_div_cancel_left₀ _ (by norm_num)
        rcases eq_or_lt_of_le h3 with heq3 | hlt3
        · -- b = r : hue lands exactly on the start of the third sector
          rw [heq3, sub_self, zero_div, zero_add]
          have hq2 : 60 * (2:ℚ) / 60 = 2 := by norm_num
          have hsvg2 : (g - r) / g * g = g - r := div_mul_cancel₀ _ (ne_of_gt hgpos)
          rw [hsv_eval2 _ _ _ (by rw [hq2]) (by rw [hq2]; norm_num), hq2, hsvg2]
          rw [Prod.mk.injEq, Prod.mk.injEq]
          exact ⟨by ring, rfl, by ring⟩
        · have qgt : -1 < (b - r) / (g - b) := by
            rw [lt_div_iff₀ hgb]; linarith
          have qlt : (b - r) / (g - b) < 0 := by
            rw [div_lt_iff₀ hgb]; linarith
          rw [hsv_eval1 _ _ _ (by rw [hq60]; linarith) (by rw [hq60]; linarith),
            hq60, hsvg]
          have e : (g - b) * (2 - ((b - r) / (g - b) + 2)) = r - b := by
            field_simp
          rw [Prod.mk.injEq, Prod.mk.injEq]
          exact ⟨by rw [e]; ring, rfl, by ring⟩
    · -- b is the max (idx = 2)
      have hrb : r < b := by
        rcases not_and_or.mp hA with hc | hc
        · exact lt_trans (not_le.mp hc) hBg
        · exact not_le.mp hc
      have hbpos : 0 < b := lt_of_le_of_lt hr0 hrb
      rcases le_total g r with h3 | h3
      · -- g is the min
        rw [rgb_eval_bg r g b hBg hrb h3]
        have hbg : 0 < b - g := by linarith
        have q0 : 0 ≤ (r - g) / (b - g) := div_nonneg (by linarith) (by linarith)
        have q1 : (r - g) / (b - g) < 1 := (div_lt_one hbg).mpr (by linarith)
        have hsvb : (b - g) / b * b = b - g := div_mul_cancel₀ _ (ne_of_gt hbpos)
        have hne2 : b - g ≠ 0 := ne_of_gt hbg
        have hq60 : 60 * ((r - g) / (b - g) + 4) / 60 = (r - g) / (b - g) + 4 :=
          mul_div_cancel_left₀ _ (by norm_num)
        rw [hsv_eval4 _ _ _ (by rw [hq60]; linarith) (by rw [hq60]; linarith),
          hq60, hsvb]
        have e : (b - g) * ((r - g) / (b - g) + 4 - 4) = r - g := by
          field_simp
          ring
        rw [Prod.mk.injEq, Prod.mk.injEq]
        exact ⟨by rw [e]; ring, by ring, rfl⟩
      · -- r is the min
        rw [rgb_eval_br r g b hBg hrb h3]
        have hbr : 0 < b - r := by linarith
        have hsvb : (b - r) / b * b = b - r := div_mul_cancel₀ _ (ne_of_gt hbpos)
        have hne : b - r ≠ 0 := ne_of_gt hbr
        have hq60 : 60 * ((r - g) / (b - r) + 4) / 60 = (r - g) / (b - r) + 4 :=
          mul_div_cancel_left₀ _ (by norm_num)
        rcases eq_or_lt_of_le h3 with heq3 | hlt3
        · -- r = g : hue lands exactly on the start of the fifth sector
          rw [← heq3, sub_self, zero_div, zero_add]
          have hq4 : 60 * (4:ℚ) / 60 = 4 := by norm_num
          rw [hsv_eval4 _ _ _ (by rw [hq4]) (by rw [hq4]; norm_num), hq4, hsvb]
          rw [Prod.mk.injEq, Prod.mk.injEq]
          exact ⟨by ring, by ring, rfl⟩
        · have qgt : -1 < (r - g) / (b - r) := by
            rw [lt_div_iff₀ hbr]; linarith
          have qlt : (r - g) / (b - r) < 0 := by
            rw [div_lt_iff₀ hbr]; linarith
          rw [hsv_eval3 _ _ _ (by rw [hq60]; linarith) (by rw [hq60]; linarith),
            hq60, hsvb]
          have e : (b - r) * (4 - ((r - g) / (b - r) + 4)) = g - r := by
            field_simp
          rw [Prod.mk.injEq, Prod.mk.injEq]
          exact ⟨by ring, by rw [e]; ring, rfl⟩

/-- Exact HSV → RGB → HSV round trip for nonzero saturation and value with
hue in `[0, 360)`. -/
theorem hsv_rgb_hsv_aux (h s v : ℚ) (hh0 : 0 ≤ h) (hh1 : h < 360)
    (hs0 : 0 < s) (hs1 : s ≤ 1) (hv0 : 0 < v) :
    rgb_to_hsv1 (hsv_to_rgb1 (h, s, v)) = (h, s, v) := by
  have hp0 : 0 ≤ h / 60 := by positivity
  have hp6 : h / 60 < 6 := by
    rw [div_lt_iff₀ (by norm_num : (0:ℚ) < 60)]; linarith
  have hh : 60 * (h / 60) = h := by
    rw [mul_comm]; exact div_mul_cancel₀ h (by norm_num)
  rcases lt_or_le (h / 60) 1 with d | d1
  · rw [hsv_eval0 h s v hp0 d,
      roundtrip_sector0 (h / 60) s v hp0 d hs0 hs1 hv0, hh]
  rcases lt_or_le (h / 60) 2 with d | d2
  · rw [hsv_eval1 h s v d1 d,
      roundtrip_sector1 (h / 60) s v d1 d hs0 hs1 hv0, hh]
  rcases lt_or_le (h / 60) 3 with d | d3
  · rw [hsv_eval2 h s v d2 d,
      roundtrip_sector2 (h / 60) s v d2 d hs0 hs1 hv0, hh]
  rcases lt_or_le (h / 60) 4 with d | d4
  · rw [hsv_eval3 h s v d3 d,
      roundtrip_sector3 (h / 60) s v d3 d hs0 hs1 hv0, hh]
  rcases lt_or_le (h / 60) 5 with d | d5
  · rw [hsv_eval4 h s v d4 d,
      roundtrip_sector4 (h / 60) s v d4 d hs0 hs1 hv0, hh]
  · rw [hsv_eval5 h s v d5 hp6,
      roundtrip_sector5 (h / 60) s v d5 hp6 hs0 hs1 hv0, hh]

/-- The HSV record computed from an in-range RGB record is itself in range
(`hue ∈ [0, 360)`, `sat, val ∈ [0, 1]`), and a zero saturation forces a zero
hue. -/
theorem rgb_to_hsv1_props (r g b : ℚ) (hr0 : 0 ≤ r) (hr1 : r ≤ 1)
    (hg0 : 0 ≤ g) (hg1 : g ≤ 1) (hb0 : 0 ≤ b) (hb1 : b ≤ 1) :
    0 ≤ (rgb_to_hsv1 (r, g, b)).1 ∧ (rgb_to_hsv1 (r, g, b)).1 < 360 ∧
    0 ≤ (rgb_to_hsv1 (r, g, b)).2.1 ∧ (rgb_to_hsv1 (r, g, b)).2.1 ≤ 1 ∧
    0 ≤ (rgb_to_hsv1 (r, g, b)).2.2 ∧ (rgb_to_hsv1 (r, g, b)).2.2 ≤ 1 ∧
    ((rgb_to_hsv1 (r, g, b)).2.1 = 0 → (rgb_to_hsv1 (r, g, b)).1 = 0) := by
  by_cases hA : r ≥ g ∧ r ≥ b
  · obtain ⟨hg, hb⟩ := hA
    rcases le_total b g with h3 | h3
    · rcases eq_or_lt_of_le hb with heq | hlt
      · have hge : g = r := le_antisymm hg (heq ▸ h3)
        rw [hge, heq, rgb_eval_gray]
        refine ⟨le_rfl, by norm_num, le_rfl, by norm_num, hr0, hr1, fun _ => rfl⟩
      · rw [rgb_eval_rb r g b hg hb h3 hlt]
        have hr : 0 < r := lt_of_le_of_lt hb0 hlt
        obtain ⟨hq0, hq6⟩ := @qmod_mem ((g - b) / (r - b)) 6 (by norm_num)
        have hs0 : 0 ≤ (r - b) / r := div_nonneg (by linarith) (by linarith)
        have hs1 : (r - b) / r ≤ 1 := (div_le_one hr).mpr (by linarith)
        exact ⟨by linarith, by linarith, hs0, hs1, by linarith, hr1,
          fun hc => absurd hc (ne_of_gt (div_pos (by linarith) hr))⟩
    · rcases eq_or_lt_of_le hg with heq | hlt
      · have hbe : b = r := le_antisymm hb (heq ▸ h3)
        rw [heq, hbe, rgb_eval_gray]
        refine ⟨le_rfl, by norm_num, le_rfl, by norm_num, hr0, hr1, fun _ => rfl⟩
      · rw [rgb_eval_rg r g b hg hb h3 hlt]
        have hr : 0 < r := lt_of_le_of_lt hg0 hlt
        obtain ⟨hq0, hq6⟩ := @qmod_mem ((g - b) / (r - g)) 6 (by norm_num)
        have hs0 : 0 ≤ (r - g) / r := div_nonneg (by linarith) (by linarith)
        have hs1 : (r - g) / r ≤ 1 := (div_le_one hr).mpr (by linarith)
        exact ⟨by linarith, by linarith, hs0, hs1, by linarith, hr1,
          fun hc => absurd hc (ne_of_gt (div_pos (by linarith) hr))⟩
  · rcases le_or_lt b g with hBg | hBg
    · have hrg : r < g := by
        rcases not_and_or.mp hA with hc | hc
        · exact not_le.mp hc
        · exact lt_of_lt_of_le (not_le.mp hc) hBg
      have hgpos : 0 < g := lt_of_le_of_lt hr0 hrg
      rcases le_total r b with h3 | h3
      · rw [rgb_eval_gr r g b hrg hBg h3]
        have hgr : 0 < g - r := by linarith
        have hd0 : 0 ≤ (b - r) / (g - r) := div_nonneg (by linarith) (by linarith)
        have hd1 : (b - r) / (g - r) ≤ 1 := (div_le_one hgr).mpr (by linarith)
        have hs0 : 0 ≤ (g - r) / g := div_nonneg (by linarith) (by linarith)
        have hs1 : (g - r) / g ≤ 1 := (div_le_one hgpos).mpr (by linarith)
        exact ⟨by linarith, by linarith, hs0, hs1, by linarith, hg1,
          fun hc => absurd hc (ne_of_gt (div_pos (by linarith) hgpos))⟩
      · rw [rgb_eval_gb r g b hrg hBg h3]
        have hgb : 0 < g - b := by linarith
        have hd0 : -1 ≤ (b - r) / (g - b) := (le_div_iff₀ hgb).mpr (by linarith)
        have hd1 : (b - r) / (g - b) ≤ 0 := (div_le_iff₀ hgb).mpr (by linarith)
        have hs0 : 0 ≤ (g - b) / g := div_nonneg (by linarith) (by linarith)
        have hs1 : (g - b) / g ≤ 1 := (div_le_one hgpos).mpr (by linarith)
        exact ⟨by linarith, by linarith, hs0, hs1, by linarith, hg1,
          fun hc => absurd hc (ne_of_gt (div_pos (by linarith) hgpos))⟩
    · have hrb : r < b := by
        rcases not_and_or.mp hA with hc | hc
        · exact lt_trans (not_le.mp hc) hBg
        · exact not_le.mp hc
      have hbpos : 0 < b := lt_of_le_of_lt hr0 hrb
      rcases le_total g r with h3 | h3
      · rw [rgb_eval_bg r g b hBg hrb h3]
        have hbg : 0 < b - g := by linarith
        have hd0 : 0 ≤ (r - g) / (b - g) := div_nonneg (by linarith) (by linarith)
        have hd1 : (r - g) / (b - g) ≤ 1 := (div_le_one hbg).mpr (by linarith)
        have hs0 : 0 ≤ (b - g) / b := div_nonneg (by linarith) (by linarith)
        have hs1 : (b - g) / b ≤ 1 := (div_le_one hbpos).mpr (by linarith)
        exact ⟨by linarith, by linarith, hs0, hs1, by linarith, hb1,
          fun hc => absurd hc (ne_of_gt (div_pos (by linarith) hbpos))⟩
      · rw [rgb_eval_br r g b hBg hrb h3]
        have hbr : 0 < b - r := by linarith
        have hd0 : -1 ≤ (r - g) / (b - r) := (le_div_iff₀ hbr).mpr (by linarith)
        have hd1 : (r - g) / (b - r) ≤ 0 := (div_le_iff₀ hbr).mpr (by linarith)
        have hs0 : 0 ≤ (b - r) / b := div_nonneg (by linarith) (by linarith)
        have hs1 : (b - r) / b ≤ 1 := (div_le_one hbpos).mpr (by linarith)
        exact ⟨by linarith, by linarith, hs0, hs1, by linarith, hb1,
          fun hc => absurd hc (ne_of_gt (div_pos (by linarith) hbpos))⟩

/-- `hsv_to_rgb1` lands in `[0, 1]` on each channel whenever `s, v ∈ [0, 1]`
(the hue may be arbitrary). -/
theorem hsv_to_rgb1_range (h s v : ℚ) (hs0 : 0 ≤ s) (hs1 : s ≤ 1)
    (hv0 : 0 ≤ v) (hv1 : v ≤ 1) :
    0 ≤ (hsv_to_rgb1 (h, s, v)).1 ∧ (hsv_to_rgb1 (h, s, v)).1 ≤ 1 ∧
    0 ≤ (hsv_to_rgb1 (h, s, v)).2.1 ∧ (hsv_to_rgb1 (h, s, v)).2.1 ≤ 1 ∧
    0 ≤ (hsv_to_rgb1 (h, s, v)).2.2 ∧ (hsv_to_rgb1 (h, s, v)).2.2 ≤ 1 := by
  have hc0 : 0 ≤ s * v := mul_nonneg hs0 hv0
  have hcv : s * v ≤ v := by nlinarith
  obtain ⟨hm0, hm2⟩ := @qmod_mem (h / 60) 2 (by norm_num)
  have habs : |qmod (h / 60) 2 - 1| ≤ 1 := abs_le.mpr ⟨by linarith, by linarith⟩
  have habs0 : 0 ≤ |qmod (h / 60) 2 - 1| := abs_nonneg _
  have hx0 : 0 ≤ s * v * (1 - |qmod (h / 60) 2 - 1|) := by
    apply mul_nonneg hc0; linarith
  have hxc : s * v * (1 - |qmod (h / 60) 2 - 1|) ≤ s * v := by nlinarith
  simp only [hsv_to_rgb1]
  split_ifs <;>
    exact ⟨by dsimp only; linarith, by dsimp only; linarith,
      by dsimp only; linarith, by dsimp only; linarith,
      by dsimp only; linarith, by dsimp only; linarith⟩

/-- Claim C1, counterexample: `(h, s, v) = (120, 1, 0)` is a valid HSV
record with nonzero saturation, yet converting to RGB (black) and back
yields `(0, 0, 0)`, so the claimed HSV round trip fails when the value is
zero. -/
theorem c1_counterexample :
    (0 ≤ (120:ℚ) ∧ (120:ℚ) < 360 ∧ 0 ≤ (1:ℚ) ∧ (1:ℚ) ≤ 1 ∧
      0 ≤ (0:ℚ) ∧ (0:ℚ) ≤ 1 ∧ (1:ℚ) ≠ 0) ∧
    rgb_to_hsv1 (hsv_to_rgb1 (120, 1, 0)) = (0, 0, 0) ∧
    rgb_to_hsv1 (hsv_to_rgb1 (120, 1, 0)) ≠ (120, 1, 0) := by
  refine ⟨by norm_num, ?_, ?_⟩ <;>
    norm_num [rgb_to_hsv1, hsv_to_rgb1, qmod, min_def, Prod.ext_iff]

/-- Claim C1 (amended): the RGB → HSV → RGB round trip is exact for every
RGB record with channels in `[0, 1]`; the HSV → RGB → HSV round trip is
exact for every valid HSV record (`h ∈ [0, 360)`, `s, v ∈ [0, 1]`) whose
saturation *and value* are nonzero (a zero value collapses the color to
black, losing both hue and saturation). -/
theorem c1_round_trip :
    (∀ r g b : ℚ, 0 ≤ r → r ≤ 1 → 0 ≤ g → g ≤ 1 → 0 ≤ b → b ≤ 1 →
      hsv_to_rgb1 (rgb_to_hsv1 (r, g, b)) = (r, g, b)) ∧
    (∀ h s v : ℚ, 0 ≤ h → h < 360 → 0 ≤ s → s ≤ 1 → 0 ≤ v → v ≤ 1 →
      s ≠ 0 → v ≠ 0 → rgb_to_hsv1 (hsv_to_rgb1 (h, s, v)) = (h, s, v)) := by
  constructor
  · intro r g b hr0 _ hg0 _ hb0 _
    exact rgb_hsv_rgb_aux r g b hr0 hg0 hb0
  · intro h s v hh0 hh1 hs0 hs1 hv0 _ hsne hvne
    exact hsv_rgb_hsv_aux h s v hh0 hh1
      (lt_of_le_of_ne hs0 (Ne.symm hsne)) hs1
      (lt_of_le_of_ne hv0 (Ne.symm hvne))

/-- Claim C1, witness: both round trips evaluated at concrete records. -/
theorem c1_round_trip_witness :
    hsv_to_rgb1 (rgb_to_hsv1 (1/2, 1/4, 3/4)) = (1/2, 1/4, 3/4) ∧
    rgb_to_hsv1 (hsv_to_rgb1 (300, 1/2, 1/2)) = (300, 1/2, 1/2) :=
  ⟨c1_round_trip.1 (1/2) (1/4) (3/4) (by norm_num) (by norm_num) (by norm_num)
      (by norm_num) (by norm_num) (by norm_num),
    c1_round_trip.2 300 (1/2) (1/2) (by norm_num) (by norm_num) (by norm_num)
      (by norm_num) (by norm_num) (by norm_num) (by norm_num) (by norm_num)⟩

/-! ## Array-level conversions (`_check_color_dim`, `_rgb_to_hsv`,
`_rgb_to_lab`) -/

/-- `_check_color_dim`: the value must be N×3 or N×4 (we additionally ask
for uniform row lengths, which numpy enforces when building the float
array); otherwise `RuntimeError` is raised. -/
def check_color_dim (val : List (List ℚ)) : Option ℕ :=
  match val with
  | [] => none
  | row :: _ =>
    if (∀ r ∈ val, r.length = row.length) ∧
        (row.length = 3 ∨ row.length = 4) then some row.length else none

/-- `_rgb_to_hsv` on an N×3 or N×4 array: convert each row with the scalar
kernel.  For 4-channel input the source then executes
`np.concatenate((hsvs, rgbs[:, 3]), axis=1)`, where `hsvs` has shape
(N, 3) but `rgbs[:, 3]` has shape (N,): numpy raises `ValueError` (all
input arrays must have the same number of dimensions), modelled as
`none`. -/
def rgb_to_hsv (rgbs : List (List ℚ)) : Option (List (List ℚ)) :=
  match check_color_dim rgbs with
  | none => none
  | some n_dim =>
    let hsvs := rgbs.map fun row =>
      let t := rgb_to_hsv1 (row.getD 0 0, row.getD 1 0, row.getD 2 0)
      [t.1, t.2.1, t.2.2]
    if n_dim = 4 then none else some hsvs

/-- `_rgb2xyz_norm`: the RGB→XYZ matrix with D65 white-point normalization
built in. -/
def rgb2xyz_norm : List (List ℚ) :=
  [[0.43395276, 0.212671, 0.01775791],
   [0.37621941, 0.71516, 0.10947652],
   [0.18982783, 0.072169, 0.87276557]]

/-- `_rgb_to_lab`.  The gamma expansion `((v + 0.055) / 1.055) ** 2.4` and
the companding cube root `x ** (1/3)` are floating-point powers with no
exact rational counterpart, so they are abstracted as the parameters
`pow24` and `cbrt` (the property checked here does not depend on them);
everything else (thresholds, matrix, affine companding branch, L/a/b
formulas) is the source's arithmetic.  For 4-channel input the source
calls `np.atleast1d`, a function that does not exist in numpy (the real
name is `np.atleast_1d`), so Python raises `AttributeError`: modelled as
`none`. -/
def rgb_to_lab (pow24 cbrt : ℚ → ℚ) (rgbs : List (List ℚ)) :
    Option (List (List ℚ)) :=
  match check_color_dim rgbs with
  | none => none
  | some n_dim =>
    let gam := fun q : ℚ =>
      if q > 0.04045 then pow24 ((q + 0.055) / 1.055) else q / 12.92
    let comp := fun q : ℚ =>
      if q > 0.008856 then cbrt q else 7.787 * q + 0.13793103448275862
    let m := fun i j : ℕ => (rgb2xyz_norm.getD i []).getD j 0
    let labs := rgbs.map fun row =>
      let r := gam (row.getD 0 0)
      let g := gam (row.getD 1 0)
      let b := gam (row.getD 2 0)
      let X := comp (r * m 0 0 + g * m 1 0 + b * m 2 0)
      let Y := comp (r * m 0 1 + g * m 1 1 + b * m 2 1)
      let Z := comp (r * m 0 2 + g * m 1 2 + b * m 2 2)
      [116 * Y - 16, 500 * (X - Y), 200 * (Y - Z)]
    if n_dim = 4 then none else some labs

/-- Claim C2: the claim says both conversions are total on N×4 input and
pass the alpha column through; in the source both 4-channel paths crash
(`_rgb_to_hsv` concatenates arrays of mismatched dimension, `_rgb_to_lab`
calls the nonexistent `np.atleast1d`), so a 1×4 input yields an exception,
not an alpha-preserving result.  This is a code bug: the docstrings promise
Nx4 support and the dead branch plainly intends to append alpha. -/
theorem c2_alpha_passthrough_crashes :
    rgb_to_hsv [[1, 0, 0, 1/2]] = none ∧
    ∀ pow24 cbrt : ℚ → ℚ, rgb_to_lab pow24 cbrt [[1, 0, 0, 1/2]] = none := by
  refine ⟨rfl, fun pow24 cbrt => rfl⟩

/-! ## Hex parsing (`_hex_to_rgba`, `_string_to_rgb`) -/

/-- Value of a single hexadecimal digit (the digits accepted by
`int(_, 16)`). -/
def hexVal (c : Char) : Option ℕ :=
  if '0' ≤ c ∧ c ≤ '9' then some (c.toNat - '0'.toNat)
  else if 'a' ≤ c ∧ c ≤ 'f' then some (c.toNat - 'a'.toNat + 10)
  else if 'A' ≤ c ∧ c ≤ 'F' then some (c.toNat - 'A'.toNat + 10)
  else none

/-- `int(h[i:i+2], 16)` on a two-character slice of a hex string (modelled
strictly on hex digits; the slices fed to it here are digit pairs). -/
def hexPair (a b : Char) : Option ℕ :=
  match hexVal a, hexVal b with
  | some x, some y => some (16 * x + y)
  | _, _ => none

/-- The loop `[int(color[i:i+2], 16) for i in range(off, len, 2)]`. -/
def parsePairs : List Char → Option (List ℕ)
  | [] => some []
  | [_] => none
  | a :: b :: rest =>
    match hexPair a b, parsePairs rest with
    | some x, some xs => some (x :: xs)
    | _, _ => none

/-- `_hex_to_rgba` on one string.  `np.array(hexs, '|U9')` first truncates
every string to 9 characters; `h[0]` raises `IndexError` on an empty
string; `assert len(h) in (6+off, 8+off)` rejects every other length; the
output row starts as ones and its first `e` entries are overwritten with
`digit-pair / 255`. -/
def hex_to_rgba1 (h0 : List Char) : Option (List ℚ) :=
  let h := h0.take 9
  match h with
  | [] => none
  | c0 :: _ =>
    let off := if c0 = '#' then 1 else 0
    if h.length = 6 + off ∨ h.length = 8 + off then
      match parsePairs (h.drop off) with
      | none => none
      | some vals =>
        let q := vals.map fun n : ℕ => (n : ℚ) / 255
        some (q ++ List.replicate (4 - q.length) 1)
    else none

/-- `_hex_to_rgba` on a list of strings (the loop fills a fresh `out`
array; any failing row aborts the whole call). -/
def hex_to_rgba (hexs : List (List Char)) : Option (List (List ℚ)) :=
  hexs.mapM hex_to_rgba1

/-- `_string_to_rgb`: a string that does not start with `'#'` is resolved
case-insensitively through the external name table `_color_dict` (an
external collaborator, abstracted as `dict`); the result must start with
`'#'` (source `assert`).  The hex body is then expanded by digit
duplication when it has 3 or 4 digits, must have 6 or 8 digits, and is
parsed pairwise as `digit-pair / 255`. -/
def string_to_rgb (dict : List Char → Option (List Char))
    (color : List Char) : Option (List ℚ) :=
  match (if color.headD ' ' = '#' then some color
         else dict (color.map Char.toLower)) with
  | none => none
  | some c2 =>
    if c2.headD ' ' = '#' then
      let body := c2.drop 1
      let body :=
        if body.length = 3 ∨ body.length = 4 then body.flatMap fun c => [c, c]
        else body
      if body.length = 6 ∨ body.length = 8 then
        match parsePairs body with
        | none => none
        | some vals => some (vals.map fun n : ℕ => (n : ℚ) / 255)
      else none
    else none

theorem parsePairs_total : ∀ ds : List Char,
    (∀ c ∈ ds, (hexVal c).isSome = true) → ds.length % 2 = 0 →
    ∃ vals, parsePairs ds = some vals ∧ vals.length = ds.length / 2
  | [], _, _ => ⟨[], rfl, rfl⟩
  | [a], _, heven => by simp at heven
  | a :: b :: rest, hhex, heven => by
    obtain ⟨va, hva⟩ := Option.isSome_iff_exists.mp (hhex a (by simp))
    obtain ⟨vb, hvb⟩ := Option.isSome_iff_exists.mp (hhex b (by simp))
    obtain ⟨vals, hvals, hlen⟩ := parsePairs_total rest
      (fun c hc => hhex c (by simp [hc]))
      (by simp only [List.length_cons] at heven; omega)
    refine ⟨(16 * va + vb) :: vals, ?_, ?_⟩
    · simp [parsePairs, hexPair, hva, hvb, hvals]
    · simp only [List.length_cons, hlen]
      omega

theorem hexVal_ne_hash {c : Char} (h : (hexVal c).isSome = true) : c ≠ '#' := by
  intro he
  rw [he] at h
  simp [hexVal] at h

/-- Claim C3, counterexample: `_hex_to_rgba` rejects the 3-digit form
`"#abc"` (its `assert` only admits 6 or 8 digits), whereas the claim says
`hexToRGBA` accepts 3 hex digits by duplicating each digit.  The
digit-duplication behavior lives in `_string_to_rgb` instead. -/
theorem c3_counterexample :
    hex_to_rgba1 ("#abc".data) = none ∧
    string_to_rgb (fun _ => none) ("#abc".data) =
      some [170 / 255, 187 / 255, 204 / 255] := by
  constructor
  · rfl
  · have h1 : string_to_rgb (fun _ => none) ("#abc".data) =
        some ([170, 187, 204].map fun n => (n : ℚ) / 255) := rfl
    rw [h1]
    norm_num

theorem flatMap_pair_length (ds : List Char) :
    (ds.flatMap fun c => [c, c]).length = 2 * ds.length := by
  induction ds with
  | nil => rfl
  | cons a tl ih => simp [ih]; omega

/-- Evaluation of `_hex_to_rgba` on one untruncated (≤ 9 character)
nonempty string. -/
theorem hex_to_rgba1_cons (c0 : Char) (tl : List Char)
    (h : (c0 :: tl).length ≤ 9) :
    hex_to_rgba1 (c0 :: tl) =
      (if (c0 :: tl).length = 6 + (if c0 = '#' then 1 else 0) ∨
          (c0 :: tl).length = 8 + (if c0 = '#' then 1 else 0) then
        match parsePairs ((c0 :: tl).drop (if c0 = '#' then 1 else 0)) with
        | none => none
        | some vals =>
          some (vals.map (fun n : ℕ => (n : ℚ) / 255) ++
            List.replicate
              (4 - (vals.map (fun n : ℕ => (n : ℚ) / 255)).length) 1)
       else none) := by
  have ht : (c0 :: tl).take 9 = c0 :: tl := List.take_of_length_le h
  simp only [hex_to_rgba1, ht]

/-- Claim C3 (amended): `_hex_to_rgba` accepts exactly 6 or 8 hex digits
with an optional leading `'#'` (inputs longer than 9 characters are first
truncated by `np.array(hexs, '|U9')`, hence the length bound), producing
channel values digit-pair/255 with alpha defaulting to 1 on 6-digit input,
and fails (`AssertionError`) on every other digit count; the 3/4-digit
duplication the claim describes is performed only by `_string_to_rgb`,
whose hex path requires the `'#'` prefix. -/
theorem c3_hex_parsing :
    (∀ (pre : Bool) (ds : List Char),
      (∀ c ∈ ds, (hexVal c).isSome = true) → ds.length ≤ 8 →
      ((ds.length = 6 ∨ ds.length = 8) →
        ∃ vals, parsePairs ds = some vals ∧
          hex_to_rgba1 ((if pre then ['#'] else []) ++ ds) =
            some (vals.map (fun n : ℕ => (n : ℚ) / 255) ++
              List.replicate (4 - ds.length / 2) 1)) ∧
      (¬(ds.length = 6 ∨ ds.length = 8) →
        hex_to_rgba1 ((if pre then ['#'] else []) ++ ds) = none)) ∧
    (∀ (dict : List Char → Option (List Char)) (ds : List Char),
      (∀ c ∈ ds, (hexVal c).isSome = true) →
      (ds.length = 3 ∨ ds.length = 4) →
      ∃ vals, parsePairs (ds.flatMap fun c => [c, c]) = some vals ∧
        string_to_rgb dict ('#' :: ds) =
          some (vals.map fun n : ℕ => (n : ℚ) / 255)) := by
  constructor
  · intro pre ds hhex hlen
    constructor
    · intro h68
      obtain ⟨vals, hvals, hvlen⟩ := parsePairs_total ds hhex
        (by rcases h68 with h | h <;> simp [h])
      refine ⟨vals, hvals, ?_⟩
      cases pre
      · -- no '#': the first character is a hex digit, so `off = 0`
        cases ds with
        | nil => simp at h68
        | cons c0 tl =>
          have hc0 : c0 ≠ '#' := hexVal_ne_hash (hhex c0 (by simp))
          show hex_to_rgba1 (c0 :: tl) = _
          rw [hex_to_rgba1_cons c0 tl (by omega)]
          simp only [if_neg hc0, Nat.add_zero, List.drop_zero]
          rw [if_pos h68, hvals]
          simp only [List.length_map, hvlen]
      · -- leading '#': `off = 1`
        show hex_to_rgba1 ('#' :: ds) = _
        rw [hex_to_rgba1_cons '#' ds (by simp only [List.length_cons]; omega)]
        simp only [if_pos rfl, if_true, List.length_cons, List.drop_one,
          List.tail_cons]
        rw [if_pos (by omega), hvals]
        simp only [List.length_map, hvlen]
    · intro h68
      cases pre
      · cases ds with
        | nil => rfl
        | cons c0 tl =>
          have hc0 : c0 ≠ '#' := hexVal_ne_hash (hhex c0 (by simp))
          show hex_to_rgba1 (c0 :: tl) = _
          rw [hex_to_rgba1_cons c0 tl (by omega)]
          simp only [if_neg hc0, Nat.add_zero]
          rw [if_neg h68]
      · show hex_to_rgba1 ('#' :: ds) = _
        rw [hex_to_rgba1_cons '#' ds (by simp only [List.length_cons]; omega)]
        simp only [if_pos rfl, if_true, List.length_cons]
        rw [if_neg (by omega)]
  · intro dict ds hhex h34
    have hdup : ∀ c ∈ ds.flatMap fun c => [c, c], (hexVal c).isSome = true := by
      intro c hc
      simp only [List.mem_flatMap, List.mem_cons, List.mem_singleton] at hc
      obtain ⟨d, hd, hcd⟩ := hc
      rcases hcd with rfl | hcd
      · exact hhex _ hd
      · rcases hcd with rfl | hcd
        · exact hhex _ hd
        · exact absurd hcd (List.not_mem_nil c)
    obtain ⟨vals, hvals, -⟩ := parsePairs_total _ hdup
      (by rw [flatMap_pair_length]; omega)
    refine ⟨vals, hvals, ?_⟩
    simp only [string_to_rgb, List.headD_cons, if_pos rfl, if_true,
      List.drop_one, List.tail_cons]
    rw [if_pos h34]
    rw [if_pos (by rw [flatMap_pair_length]; omega)]
    rw [hvals]

/-- Claim C3, witness: the amended theorem applied at an accepted 8-digit
input, a rejected 5-digit input, and a 3-digit `_string_to_rgb` input. -/
theorem c3_hex_parsing_witness :
    (∃ vals, parsePairs ("aabbccdd".data) = some vals ∧
      hex_to_rgba1 ((if true then ['#'] else []) ++ "aabbccdd".data) =
        some (vals.map (fun n : ℕ => (n : ℚ) / 255) ++
          List.replicate (4 - ("aabbccdd".data).length / 2) 1)) ∧
    hex_to_rgba1 ((if false then ['#'] else []) ++ "abcde".data) = none ∧
    (∃ vals, parsePairs (("abc".data).flatMap fun c => [c, c]) = some vals ∧
      string_to_rgb (fun _ => none) ('#' :: "abc".data) =
        some (vals.map fun n : ℕ => (n : ℚ) / 255)) :=
  ⟨(c3_hex_parsing.1 true ("aabbccdd".data) (by decide) (by decide)).1
      (by decide),
   (c3_hex_parsing.1 false ("abcde".data) (by decide) (by decide)).2
      (by decide),
   c3_hex_parsing.2 (fun _ => none) ("abc".data) (by decide) (by decide)⟩

/-! ## Colormap interpolation (`_find_controls`, `_mix_simple`,
`_smoothstep_simple`, `_interpolate_multi`, `mix`, `smoothstep`, `step`).
The numpy functions map over a batch of query values; per-query behavior
is modelled with a scalar `x`. -/

/-- `np.searchsorted(controls, x)` (default left side) on a sorted array:
the number of entries strictly below `x`. -/
def searchsorted (controls : List ℚ) (x : ℚ) : ℕ :=
  (controls.filter fun c => decide (c < x)).length

/-- `_find_controls`: `np.clip(np.searchsorted(controls, x) - 1, 0, n-1)`;
natural subtraction saturates at 0, which is exactly the lower clip. -/
def find_controls (x : ℚ) (controls : List ℚ) : ℕ :=
  min (searchsorted controls x - 1) (controls.length - 1)

/-- `_mix_simple`: clip the proportion to `[0, 1]`, then blend
`(1-x)*a + x*b` componentwise. -/
def mix_simple (a b : List ℚ) (x : ℚ) : List ℚ :=
  List.zipWith (fun ai bi => (1 - clip01 x) * ai + clip01 x * bi) a b

/-- `_smoothstep_simple`: `y = x*x*(3 - 2*x)` then `_mix_simple` with
`y`. -/
def smoothstep_simple (a b : List ℚ) (x : ℚ) : List ℚ :=
  mix_simple a b (x * x * (3 - 2 * x))

/-- `np.diff`. -/
def diffs : List ℚ → List ℚ
  | [] => []
  | [_] => []
  | a :: b :: t => (b - a) :: diffs (b :: t)

/-- numpy float division, modelled as failing on a zero divisor (numpy
emits a divide warning and produces inf/nan; the substitution in
`_interpolate_multi` exists precisely to avoid that). -/
def npDiv (a d : ℚ) : Option ℚ := if d = 0 then none else some (a / d)

/-- `_interpolate_multi` for one query value: clip the bin index to
`[0, n-2]`, replace zero bin lengths by 1, and return the two bin colors
with the clipped relative position. -/
def interpolate_multi (colors : List (List ℚ)) (x : ℚ) (controls : List ℚ) :
    Option (List ℚ × List ℚ × ℚ) :=
  let n := colors.length
  let x_step := min (find_controls x controls) (n - 2)
  let controls_length := (diffs controls).map fun d => if d = 0 then 1 else d
  match npDiv (x - controls.getD x_step 0) (controls_length.getD x_step 0) with
  | none => none
  | some t =>
    some (colors.getD x_step [], colors.getD (x_step + 1) [], clip01 t)

/-- `mix(colors, x, controls)` for one query value. -/
def mix (colors : List (List ℚ)) (x : ℚ) (controls : List ℚ) :
    Option (List ℚ) :=
  (interpolate_multi colors x controls).map fun p => mix_simple p.1 p.2.1 p.2.2

/-- `smoothstep(colors, x, controls)` for one query value. -/
def smoothstep (colors : List (List ℚ)) (x : ℚ) (controls : List ℚ) :
    Option (List ℚ) :=
  (interpolate_multi colors x controls).map fun p =>
    smoothstep_simple p.1 p.2.1 p.2.2

/-- `step(colors, x, controls)` for one query value: the two `assert`s
(endpoints exactly `(0, 1)`, at least 3 control points), then
`colors[x_step]` returned unmodified — no blending. -/
def step (colors : List (List ℚ)) (x : ℚ) (controls : List ℚ) :
    Option (List ℚ) :=
  if (controls.headD 0 = 0 ∧ controls.getLastD 0 = 1) ∧
      3 ≤ controls.length then
    some (colors.getD (find_controls x controls) [])
  else none

theorem getD_mem_of_lt {α : Type} (l : List α) (i : ℕ) (hi : i < l.length)
    (d : α) : l.getD i d ∈ l := by
  induction l generalizing i with
  | nil => simp at hi
  | cons a t ih =>
    cases i with
    | zero => simp
    | succ j =>
      simp only [List.getD_cons_succ]
      exact List.mem_cons_of_mem a (ih j (by simpa using hi))

theorem getD_map {α β : Type} (f : α → β) (l : List α) (i : ℕ)
    (hi : i < l.length) (d : β) (d' : α) :
    (l.map f).getD i d = f (l.getD i d') := by
  induction l generalizing i with
  | nil => simp at hi
  | cons a t ih =>
    cases i with
    | zero => simp
    | succ j => simpa using ih j (by simpa using hi)

theorem getD_append_lt {α : Type} (l1 l2 : List α) (i : ℕ)
    (hi : i < l1.length) (d : α) : (l1 ++ l2).getD i d = l1.getD i d := by
  induction l1 generalizing i with
  | nil => simp at hi
  | cons a t ih =>
    cases i with
    | zero => simp
    | succ j => simpa using ih j (by simpa using hi)

theorem getD_append_len {α : Type} (l1 l2 : List α) (d : α) :
    (l1 ++ l2).getD l1.length d = l2.getD 0 d := by
  induction l1 with
  | nil => simp
  | cons a t ih => simpa using ih

theorem getD_last {α : Type} (l : List α) (d : α) (h : l ≠ []) :
    l.getD (l.length - 1) d = l.getLastD d := by
  induction l with
  | nil => exact absurd rfl h
  | cons a t ih =>
    cases t with
    | nil => rfl
    | cons b u =>
      have := ih (by simp)
      simpa [List.getLastD_cons] using this

theorem pairwise_head_le (c0 : ℚ) (rest : List ℚ)
    (h : (c0 :: rest).Pairwise (· < ·)) : ∀ c ∈ c0 :: rest, c0 ≤ c := by
  intro c hc
  rcases List.mem_cons.mp hc with rfl | hc
  · exact le_rfl
  · exact le_of_lt ((List.pairwise_cons.mp h).1 c hc)

theorem pairwise_lt_getD (c : ℚ) (t : List ℚ) (i : ℕ)
    (h : (c :: t).Pairwise (· < ·)) (hi : i < t.length) : c < t.getD i 0 :=
  (List.pairwise_cons.mp h).1 _ (getD_mem_of_lt t i hi 0)

theorem sorted_adjacent : ∀ (l : List ℚ), l.Pairwise (· < ·) →
    ∀ i, i + 1 < l.length → l.getD i 0 < l.getD (i + 1) 0
  | [], _, i, hi => by simp at hi
  | a :: t, h, 0, hi => by
    simpa using pairwise_lt_getD a t 0 h (by simpa using hi)
  | a :: t, h, i + 1, hi => by
    simpa using sorted_adjacent t (List.pairwise_cons.mp h).2 i
      (by simpa using hi)

theorem diffs_length : ∀ l : List ℚ, (diffs l).length = l.length - 1
  | [] => rfl
  | [_] => rfl
  | a :: b :: t => by
    simpa [diffs] using diffs_length (b :: t)

theorem diffs_getD : ∀ (l : List ℚ) (i : ℕ), i + 1 < l.length →
    (diffs l).getD i 0 = l.getD (i + 1) 0 - l.getD i 0
  | [], i, hi => by simp at hi
  | [_], i, hi => by simp at hi
  | a :: b :: t, 0, _ => rfl
  | a :: b :: t, i + 1, hi => by
    simpa [diffs] using diffs_getD (b :: t) i (by simpa using hi)

theorem searchsorted_zero (controls : List ℚ) (x : ℚ)
    (h : ∀ c ∈ controls, ¬(c < x)) : searchsorted controls x = 0 := by
  rw [searchsorted, List.length_eq_zero, List.filter_eq_nil_iff]
  intro c hc
  simpa using h c hc

theorem searchsorted_all (controls : List ℚ) (x : ℚ)
    (h : ∀ c ∈ controls, c < x) :
    searchsorted controls x = controls.length := by
  rw [searchsorted]
  congr 1
  rw [List.filter_eq_self]
  intro c hc
  simpa using h c hc

theorem searchsorted_append (l1 l2 : List ℚ) (x : ℚ)
    (h1 : ∀ c ∈ l1, c < x) (h2 : ∀ c ∈ l2, ¬(c < x)) :
    searchsorted (l1 ++ l2) x = l1.length := by
  have e1 : (l1.filter fun c => decide (c < x)).length = l1.length :=
    searchsorted_all l1 x h1
  have e2 : (l2.filter fun c => decide (c < x)).length = 0 :=
    searchsorted_zero l2 x h2
  rw [searchsorted, List.filter_append, List.length_append, e1, e2]
  omega

theorem searchsorted_cons_lt (c : ℚ) (t : List ℚ) (x : ℚ) (h : c < x) :
    searchsorted (c :: t) x = searchsorted t x + 1 := by
  simp [searchsorted, List.filter_cons, h]

theorem searchsorted_sorted : ∀ (controls : List ℚ) (x : ℚ) (i : ℕ),
    controls.Pairwise (· < ·) → i + 1 < controls.length →
    controls.getD i 0 < x → x ≤ controls.getD (i + 1) 0 →
    searchsorted controls x = i + 1
  | [], x, i, _, hi, _, _ => by simp at hi
  | c :: t, x, 0, hs, hi, hlo, hhi => by
    have ht : t ≠ [] := by
      intro he
      rw [he] at hi
      simp at hi
    obtain ⟨t0, u, rfl⟩ := List.exists_cons_of_ne_nil ht
    have hcx : c < x := by simpa using hlo
    have htx : ∀ e ∈ t0 :: u, ¬(e < x) := by
      intro e he
      have h1 : t0 ≤ e := pairwise_head_le t0 u (List.pairwise_cons.mp hs).2 e he
      have h2 : x ≤ t0 := by simpa using hhi
      exact not_lt.mpr (le_trans h2 h1)
    rw [searchsorted_cons_lt c _ x hcx, searchsorted_zero (t0 :: u) x htx]
  | c :: t, x, i + 1, hs, hi, hlo, hhi => by
    have hit : i + 1 < t.length := by simpa using hi
    have hcx : c < x := by
      have h1 : c < t.getD i 0 := pairwise_lt_getD c t i hs (by omega)
      have h2 : t.getD i 0 < x := by simpa using hlo
      exact lt_trans h1 h2
    rw [searchsorted_cons_lt c _ x hcx,
      searchsorted_sorted t x i (List.pairwise_cons.mp hs).2 hit
        (by simpa using hlo) (by simpa using hhi)]

theorem clip01_of_nonpos {x : ℚ} (h : x ≤ 0) : clip01 x = 0 := by
  rw [clip01, min_eq_left (le_trans h zero_le_one), max_eq_left h]

theorem clip01_of_one_le {x : ℚ} (h : 1 ≤ x) : clip01 x = 1 := by
  rw [clip01, min_eq_right h]
  exact max_eq_right zero_le_one

theorem mix_simple_of_clip_zero (a b : List ℚ) (x : ℚ) (hc : clip01 x = 0)
    (h : a.length = b.length) : mix_simple a b x = a := by
  simp only [mix_simple, hc]
  induction a generalizing b with
  | nil => rfl
  | cons p t ih =>
    cases b with
    | nil => simp at h
    | cons q u =>
      simp only [List.zipWith_cons_cons, List.cons.injEq]
      exact ⟨by ring, ih u (by simpa using h)⟩

theorem mix_simple_of_clip_one (a b : List ℚ) (x : ℚ) (hc : clip01 x = 1)
    (h : a.length = b.length) : mix_simple a b x = b := by
  simp only [mix_simple, hc]
  induction a generalizing b with
  | nil => cases b with
    | nil => rfl
    | cons q u => simp at h
  | cons p t ih =>
    cases b with
    | nil => simp at h
    | cons q u =>
      simp only [List.zipWith_cons_cons, List.cons.injEq]
      exact ⟨by ring, ih u (by simpa using h)⟩

/-- One-step evaluation of `_interpolate_multi` once the clipped bin index
`k` is known: the bin length is `controls[k+1] - controls[k]`, substituted
by 1 when zero. -/
theorem interpolate_multi_eval (colors : List (List ℚ)) (controls : List ℚ)
    (x : ℚ) (k : ℕ)
    (hk : min (find_controls x controls) (colors.length - 2) = k)
    (hk1 : k + 1 < controls.length) :
    interpolate_multi colors x controls =
      some (colors.getD k [], colors.getD (k + 1) [],
        clip01 ((x - controls.getD k 0) /
          (if controls.getD (k + 1) 0 - controls.getD k 0 = 0 then 1
           else controls.getD (k + 1) 0 - controls.getD k 0))) := by
  have hsub : (if controls.getD (k + 1) 0 - controls.getD k 0 = 0 then (1:ℚ)
      else controls.getD (k + 1) 0 - controls.getD k 0) ≠ 0 := by
    split
    · exact one_ne_zero
    · assumption
  have hdlen : k < (diffs controls).length := by
    rw [diffs_length]; omega
  have hmap : ((diffs controls).map fun d => if d = 0 then 1 else d).getD k 0 =
      (if controls.getD (k + 1) 0 - controls.getD k 0 = 0 then 1
       else controls.getD (k + 1) 0 - controls.getD k 0) := by
    rw [getD_map _ _ _ hdlen _ 0, diffs_getD controls k hk1]
  rw [interpolate_multi]
  simp only [hk, hmap]
  rw [npDiv, if_neg hsub]

/-- `mix` at or below the left end of the domain returns the first control
color exactly. -/
theorem mix_low_aux (colors : List (List ℚ)) (controls : List ℚ) (x : ℚ)
    (hx : x ≤ 0) (hsort : controls.Pairwise (· < ·))
    (h0 : controls.headD 0 = 0) (hn : 2 ≤ controls.length)
    (hlen : colors.length = controls.length)
    (hrows : ∀ r ∈ colors, r.length = 4) :
    mix colors x controls = some (colors.headD []) := by
  obtain ⟨c0, t, rfl⟩ : ∃ c0 t, controls = c0 :: t := by
    cases controls with
    | nil => simp at hn
    | cons a t => exact ⟨a, t, rfl⟩
  have hc0 : c0 = 0 := by simpa using h0
  subst hc0
  have hss : searchsorted (0 :: t) x = 0 := by
    apply searchsorted_zero
    intro c hc
    have := pairwise_head_le 0 t hsort c hc
    push_neg
    linarith
  have hfc : min (find_controls x (0 :: t)) (colors.length - 2) = 0 := by
    rw [find_controls, hss]
    simp
  have hadj : (0 : ℚ) < (0 :: t).getD 1 0 := by
    have := sorted_adjacent _ hsort 0 (by simpa using hn)
    simpa using this
  rw [mix, interpolate_multi_eval colors (0 :: t) x 0 hfc (by simpa using hn)]
  have hd : (0 :: t).getD 1 0 - (0 :: t).getD 0 0 ≠ 0 := by
    simp only [List.getD_cons_zero]
    intro hcon
    rw [sub_zero] at hcon
    exact absurd hcon (ne_of_gt hadj)
  rw [if_neg hd]
  simp only [Option.map_some', Nat.zero_add, List.getD_cons_zero, sub_zero]
  have ht : x / (0 :: t).getD 1 0 ≤ 0 := by
    apply div_nonpos_of_nonpos_of_nonneg hx (le_of_lt hadj)
  have hclip : clip01 (clip01 (x / (0 :: t).getD 1 0)) = 0 := by
    rw [clip01_of_nonpos ht]
    exact clip01_of_nonpos le_rfl
  have hc2 : 2 ≤ colors.length := by
    rw [hlen]; simpa using hn
  have hl0 : (colors.getD 0 []).length = 4 :=
    hrows _ (getD_mem_of_lt colors 0 (by omega) [])
  have hl1 : (colors.getD 1 []).length = 4 :=
    hrows _ (getD_mem_of_lt colors 1 (by omega) [])
  rw [show mix_simple (colors.getD 0 []) (colors.getD 1 [])
        (clip01 (x / (0 :: t).getD 1 0)) = colors.getD 0 [] from
      mix_simple_of_clip_zero _ _ _ hclip (by rw [hl0, hl1])]
  cases colors with
  | nil => simp at hc2
  | cons r rs => rfl

/-- `mix` at or above the right end of the domain returns the last control
color exactly. -/
theorem mix_high_aux (colors : List (List ℚ)) (controls : List ℚ) (x : ℚ)
    (hx : 1 ≤ x) (hsort : controls.Pairwise (· < ·))
    (h1 : controls.getLastD 0 = 1) (hn : 2 ≤ controls.length)
    (hlen : colors.length = controls.length)
    (hrows : ∀ r ∈ colors, r.length = 4) :
    mix colors x controls = some (colors.getLastD []) := by
  have hne : controls ≠ [] := by
    intro h; rw [h] at hn; simp at hn
  have hLD : controls.getLastD 0 = controls.getLast hne := by
    rw [List.getLastD_eq_getLast?, List.getLast?_eq_getLast controls hne]
    rfl
  have hlast : controls.getLast hne = 1 := by rw [← hLD]; exact h1
  have hsplit : controls.dropLast ++ [(1:ℚ)] = controls := by
    have h2 := List.dropLast_append_getLast hne
    rw [hlast] at h2
    exact h2
  have hinit : ∀ c ∈ controls.dropLast, c < 1 := by
    intro c hc
    have hpw : (controls.dropLast ++ [(1:ℚ)]).Pairwise (· < ·) := by
      rw [hsplit]; exact hsort
    exact (List.pairwise_append.mp hpw).2.2 c hc 1 (by simp)
  have hdll : controls.dropLast.length = controls.length - 1 :=
    List.length_dropLast controls
  have hss : searchsorted controls x = controls.length - 1 ∨
      searchsorted controls x = controls.length := by
    rcases eq_or_lt_of_le hx with heq | hlt
    · left
      conv_lhs => rw [← hsplit]
      rw [searchsorted_append _ _ x
        (fun c hc => by rw [← heq]; exact hinit c hc)
        (fun c hc => by
          simp only [List.mem_singleton] at hc
          rw [hc, ← heq]
          exact lt_irrefl 1)]
      exact hdll
    · right
      apply searchsorted_all
      intro c hc
      rw [← hsplit] at hc
      rcases List.mem_append.mp hc with hc | hc
      · exact lt_trans (hinit c hc) hlt
      · simp only [List.mem_singleton] at hc
        rw [hc]; exact hlt
  have hfc : min (find_controls x controls) (colors.length - 2) =
      controls.length - 2 := by
    rw [find_controls]
    rcases hss with h | h <;> rw [h] <;> omega
  have hk1 : controls.length - 2 + 1 < controls.length := by omega
  rw [mix, interpolate_multi_eval colors controls x (controls.length - 2)
    hfc hk1]
  have hcR : controls.getD (controls.length - 2 + 1) 0 = 1 := by
    rw [show controls.length - 2 + 1 = controls.length - 1 from by omega,
      getD_last controls 0 hne]
    exact h1
  have hadj : controls.getD (controls.length - 2) 0 <
      controls.getD (controls.length - 2 + 1) 0 :=
    sorted_adjacent controls hsort (controls.length - 2) hk1
  have hcL1 : controls.getD (controls.length - 2) 0 < 1 := by
    rw [← hcR]; exact hadj
  have hd : controls.getD (controls.length - 2 + 1) 0 -
      controls.getD (controls.length - 2) 0 ≠ 0 :=
    ne_of_gt (by linarith)
  rw [if_neg hd, hcR]
  have ht : 1 ≤ (x - controls.getD (controls.length - 2) 0) /
      (1 - controls.getD (controls.length - 2) 0) := by
    rw [le_div_iff₀ (by linarith)]
    linarith
  have hclip : clip01 (clip01 ((x - controls.getD (controls.length - 2) 0) /
      (1 - controls.getD (controls.length - 2) 0))) = 1 := by
    rw [clip01_of_one_le ht]
    exact clip01_of_one_le le_rfl
  have hc2 : 2 ≤ colors.length := by rw [hlen]; exact hn
  have hl0 : (colors.getD (controls.length - 2) []).length = 4 :=
    hrows _ (getD_mem_of_lt colors _ (by omega) [])
  have hl1 : (colors.getD (controls.length - 2 + 1) []).length = 4 :=
    hrows _ (getD_mem_of_lt colors _ (by omega) [])
  simp only [Option.map_some']
  rw [mix_simple_of_clip_one _ _ _ hclip (by rw [hl0, hl1])]
  congr 1
  rw [show controls.length - 2 + 1 = colors.length - 1 from by omega]
  exact getD_last colors [] (by intro h; rw [h] at hc2; simp at hc2)

/-- Claim C4: for every colormap built from the `mix` law (strictly
increasing control points with first point 0 and last point 1, one RGBA
control color per control point), `map(0.0)` equals the first control
color exactly and `map(1.0)` equals the last control color exactly. -/
theorem c4_mix_endpoints (colors : List (List ℚ)) (controls : List ℚ)
    (hsort : controls.Pairwise (· < ·))
    (h0 : controls.headD 0 = 0) (h1 : controls.getLastD 0 = 1)
    (hn : 2 ≤ controls.length) (hlen : colors.length = controls.length)
    (hrows : ∀ r ∈ colors, r.length = 4) :
    mix colors 0 controls = some (colors.headD []) ∧
    mix colors 1 controls = some (colors.getLastD []) :=
  ⟨mix_low_aux colors controls 0 le_rfl hsort h0 hn hlen hrows,
   mix_high_aux colors controls 1 le_rfl hsort h1 hn hlen hrows⟩

/-- Claim C4, witness: a two-stop red-to-blue `mix` colormap. -/
theorem c4_mix_endpoints_witness :
    mix [[1, 0, 0, 1], [0, 0, 1, 1]] 0 [0, 1] = some [1, 0, 0, 1] ∧
    mix [[1, 0, 0, 1], [0, 0, 1, 1]] 1 [0, 1] = some [0, 0, 1, 1] :=
  c4_mix_endpoints [[1, 0, 0, 1], [0, 0, 1, 1]] [0, 1]
    (by norm_num [List.pairwise_cons]) (by norm_num) (by norm_num)
    (by norm_num) (by norm_num) (by norm_num)

/-- Claim C10: `mix` evaluation extends constantly outside the nominal
domain: every query below 0 returns the first control color and every
query above 1 the last, because both the bin index and the relative
position are clamped. -/
theorem c10_constant_extension (colors : List (List ℚ)) (controls : List ℚ)
    (x : ℚ) (hsort : controls.Pairwise (· < ·))
    (h0 : controls.headD 0 = 0) (h1 : controls.getLastD 0 = 1)
    (hn : 2 ≤ controls.length) (hlen : colors.length = controls.length)
    (hrows : ∀ r ∈ colors, r.length = 4) :
    (x < 0 → mix colors x controls = some (colors.headD [])) ∧
    (1 < x → mix colors x controls = some (colors.getLastD [])) :=
  ⟨fun hx => mix_low_aux colors controls x (le_of_lt hx) hsort h0 hn hlen
      hrows,
   fun hx => mix_high_aux colors controls x (le_of_lt hx) hsort h1 hn hlen
      hrows⟩

/-- Claim C10, witness: queries outside `[0, 1]` on a three-stop map. -/
theorem c10_constant_extension_witness :
    mix [[1, 0, 0, 1], [0, 1, 0, 1], [0, 0, 1, 1]] (-1/2) [0, 1/2, 1] =
      some [1, 0, 0, 1] ∧
    mix [[1, 0, 0, 1], [0, 1, 0, 1], [0, 0, 1, 1]] (3/2) [0, 1/2, 1] =
      some [0, 0, 1, 1] :=
  ⟨(c10_constant_extension [[1, 0, 0, 1], [0, 1, 0, 1], [0, 0, 1, 1]]
      [0, 1/2, 1] (-1/2) (by norm_num [List.pairwise_cons]) (by norm_num)
      (by norm_num) (by norm_num) (by norm_num) (by norm_num)).1
      (by norm_num),
   (c10_constant_extension [[1, 0, 0, 1], [0, 1, 0, 1], [0, 0, 1, 1]]
      [0, 1/2, 1] (3/2) (by norm_num [List.pairwise_cons]) (by norm_num)
      (by norm_num) (by norm_num) (by norm_num) (by norm_num)).2
      (by norm_num)⟩

/-- Claim C6: with a degenerate bin (two equal adjacent control points)
the `mix`/`smoothstep` interpolation is still total for every query value:
the zero bin length is substituted with 1 before dividing, so no division
by zero occurs and a defined color is returned. -/
theorem c6_degenerate_total (colors : List (List ℚ)) (controls : List ℚ)
    (x : ℚ) (h2 : 2 ≤ colors.length) (hle : colors.length ≤ controls.length)
    (hdeg : ∃ i, i + 1 < controls.length ∧
      controls.getD i 0 = controls.getD (i + 1) 0) :
    (mix colors x controls).isSome = true ∧
    (smoothstep colors x controls).isSome = true := by
  have hk1 : min (find_controls x controls) (colors.length - 2) + 1 <
      controls.length := by
    have hm : min (find_controls x controls) (colors.length - 2) ≤
        colors.length - 2 := min_le_right _ _
    omega
  rw [mix, smoothstep, interpolate_multi_eval colors controls x _ rfl hk1]
  exact ⟨rfl, rfl⟩

/-- Claim C6, witness: a four-stop map whose middle bin is degenerate
(`controls = [0, 1/2, 1/2, 1]`). -/
theorem c6_degenerate_total_witness :
    (mix [[0, 0, 0, 1], [1, 0, 0, 1], [0, 1, 0, 1], [1, 1, 1, 1]] (3/4)
      [0, 1/2, 1/2, 1]).isSome = true ∧
    (smoothstep [[0, 0, 0, 1], [1, 0, 0, 1], [0, 1, 0, 1], [1, 1, 1, 1]]
      (3/4) [0, 1/2, 1/2, 1]).isSome = true :=
  c6_degenerate_total _ _ _ (by norm_num) (by norm_num)
    ⟨1, by norm_num, by norm_num⟩

/-- Claim C5: on a discrete `step` colormap, a query value strictly inside
bin `i` returns exactly the stored control color of that bin — never a
blend of two control colors. -/
theorem c5_step_no_blend (colors : List (List ℚ)) (controls : List ℚ)
    (i : ℕ) (x : ℚ) (hsort : controls.Pairwise (· < ·))
    (h0 : controls.headD 0 = 0) (h1 : controls.getLastD 0 = 1)
    (h3 : 3 ≤ controls.length) (hi : i + 1 < controls.length)
    (hlo : controls.getD i 0 < x) (hhi : x < controls.getD (i + 1) 0) :
    step colors x controls = some (colors.getD i []) := by
  rw [step, if_pos ⟨⟨h0, h1⟩, h3⟩, find_controls,
    searchsorted_sorted controls x i hsort hi hlo (le_of_lt hhi)]
  have hmin : min (i + 1 - 1) (controls.length - 1) = i := by omega
  rw [hmin]

/-- Claim C5, witness: the middle bin of a three-stop discrete map. -/
theorem c5_step_no_blend_witness :
    step [[1, 0, 0, 1], [0, 1, 0, 1], [0, 0, 1, 1]] (2/3) [0, 1/2, 1] =
      some [0, 1, 0, 1] :=
  c5_step_no_blend [[1, 0, 0, 1], [0, 1, 0, 1], [0, 0, 1, 1]] [0, 1/2, 1]
    1 (2/3) (by norm_num [List.pairwise_cons]) (by norm_num) (by norm_num)
    (by norm_num) (by norm_num) (by norm_num) (by norm_num)

/-! ## ColorArray state and mutation setters.  The canonical buffer
`self._rgba` (N×4) is a list of rows; a setter returns
`(raised-error?, buffer after the call)`, so the buffer carried on the
error path is the buffer at the moment the exception was raised. -/

/-- The range check at the end of `_user_to_rgba`: channels must lie in
`[0, 1]`; when out of range, clip if requested (the source clips after
the check and warns), otherwise raise `ValueError`. -/
def userRangeCheck (color : List (List ℚ)) (clip : Bool) :
    Option (List (List ℚ)) :=
  if ∀ r ∈ color, ∀ q ∈ r, 0 ≤ q ∧ q ≤ 1 then some color
  else if clip then some (color.map (List.map clip01)) else none

/-- `_user_to_rgba` on numeric array input (strings and nested lists are
handled by the parsers above): shape check (N×3 or N×4, uniform rows as
numpy requires to build a float array), optional expansion with
alpha = 1.0, then the range check with optional clipping. -/
def user_to_rgba (color : List (List ℚ)) (expand : Bool) (clip : Bool) :
    Option (List (List ℚ)) :=
  match color with
  | [] => none
  | row :: _ =>
    if (∀ r ∈ color, r.length = row.length) ∧
        (row.length = 3 ∨ row.length = 4) then
      userRangeCheck
        (if expand = true ∧ row.length = 3 then color.map (· ++ [1])
         else color) clip
    else none

/-- Write columns `0 .. v.length - 1` of one row
(`self._rgba[:, :k] = rgba`, rowwise), keeping the remaining columns. -/
def writeRow (row v : List ℚ) : List ℚ := v ++ row.drop v.length

/-- The `rgba` setter on an already-initialized ColorArray: validation
(`_user_to_rgba(val, expand=False)`) runs before any write; the numpy
assignment `self._rgba[:, :k] = rgba` broadcasts a single row over all
rows, writes elementwise when the row counts match, and raises before
writing anything otherwise. -/
def set_rgba (s : List (List ℚ)) (val : List (List ℚ)) :
    Option String × List (List ℚ) :=
  match user_to_rgba val false false with
  | none => (some "ValueError", s)
  | some rgba =>
    if rgba.length = s.length then (none, List.zipWith writeRow s rgba)
    else if rgba.length = 1 then
      (none, s.map fun r => writeRow r (rgba.headD []))
    else (some "ValueError: could not broadcast", s)

/-- The `rgb` setter: `self.rgba = val` with an N×3 value (the `rgba`
setter does not expand, so only the first three columns are written). -/
def set_rgb (s : List (List ℚ)) (val : List (List ℚ)) :
    Option String × List (List ℚ) :=
  set_rgba s val

/-- The `hex` setter: `self.rgba = _hex_to_rgba(val)`. -/
def set_hex (s : List (List ℚ)) (hexs : List (List Char)) :
    Option String × List (List ℚ) :=
  match hex_to_rgba hexs with
  | none => (some "ValueError: malformed hex", s)
  | some rgba => set_rgba s rgba

/-- The `hsv` view of one row (`_rgb_to_hsv(self._rgba[:, :3])`,
rowwise). -/
def hsvOfRow (row : List ℚ) : ℚ × ℚ × ℚ :=
  rgb_to_hsv1 (row.getD 0 0, row.getD 1 0, row.getD 2 0)

/-- Hue of one buffer row as read through the HSV view. -/
def hueOf (row : List ℚ) : ℚ := (hsvOfRow row).1

/-- Saturation of one buffer row as read through the HSV view. -/
def satOf (row : List ℚ) : ℚ := (hsvOfRow row).2.1

/-- The `value` setter: read the HSV view, overwrite its V column with the
clipped values (`_array_clip_val`), convert back with `_hsv_to_rgb` (N×3)
and route through the `rgba` setter, which leaves the fourth column
alone. -/
def set_value (s : List (List ℚ)) (val : List ℚ) :
    Option String × List (List ℚ) :=
  let hsv := s.map hsvOfRow
  let hsv2 := List.zipWith (fun t v => (t.1, t.2.1, clip01 v)) hsv val
  set_rgba s (hsv2.map fun t =>
    let rgb := hsv_to_rgb1 t
    [rgb.1, rgb.2.1, rgb.2.2])

theorem getD_eq_get {α : Type} : ∀ (l : List α) (i : ℕ) (hi : i < l.length)
    (d : α), l.getD i d = l.get ⟨i, hi⟩
  | [], i, hi, d => by simp at hi
  | a :: t, 0, _, d => rfl
  | a :: t, i + 1, hi, d => by
    simpa using getD_eq_get t i (by simpa using hi) d

theorem forall_mem_of_getD {α : Type} (l : List α) (P : α → Prop) (d : α)
    (h : ∀ i, i < l.length → P (l.getD i d)) : ∀ r ∈ l, P r := by
  intro r hr
  obtain ⟨⟨i, hi⟩, rfl⟩ := List.mem_iff_get.mp hr
  have := h i hi
  rwa [getD_eq_get l i hi d] at this

theorem zipWith_getD {α β γ : Type} (f : α → β → γ) :
    ∀ (a : List α) (b : List β) (i : ℕ), i < a.length → i < b.length →
    ∀ (da : α) (db : β) (dc : γ),
    (List.zipWith f a b).getD i dc = f (a.getD i da) (b.getD i db)
  | [], _, i, hi, _, _, _, _ => by simp at hi
  | _ :: _, [], i, _, hi, _, _, _ => by simp at hi
  | x :: xs, y :: ys, 0, _, _, da, db, dc => rfl
  | x :: xs, y :: ys, i + 1, hi, hi2, da, db, dc => by
    simpa using zipWith_getD f xs ys i (by simpa using hi)
      (by simpa using hi2) da db dc

theorem getD_drop {α : Type} : ∀ (l : List α) (n : ℕ) (d : α),
    (l.drop n).getD 0 d = l.getD n d
  | [], n, d => by simp
  | a :: t, 0, d => rfl
  | a :: t, n + 1, d => by simp only [List.drop_succ_cons, List.getD_cons_succ]; exact getD_drop t n d

/-- The alpha entry of a row survives a 3-column write. -/
theorem writeRow_alpha (row v : List ℚ) (hv : v.length = 3) :
    (writeRow row v).getD 3 0 = row.getD 3 0 := by
  rw [writeRow, show (3:ℕ) = v.length from hv.symm, getD_append_len,
    getD_drop]

theorem clip01_mem (q : ℚ) : 0 ≤ clip01 q ∧ clip01 q ≤ 1 := by
  constructor
  · exact le_max_left 0 _
  · rw [clip01]
    rcases le_total q 1 with h | h
    · rw [min_eq_left h]
      exact max_le (le_of_lt one_pos) h
    · rw [min_eq_right h]
      simp

/-- `_user_to_rgba` passes an in-range uniform N×3/N×4 numeric array
through unchanged when no expansion is requested. -/
theorem user_to_rgba_ok (val : List (List ℚ)) (w : ℕ) (hne : val ≠ [])
    (hw : ∀ r ∈ val, r.length = w) (h34 : w = 3 ∨ w = 4)
    (hrange : ∀ r ∈ val, ∀ q ∈ r, 0 ≤ q ∧ q ≤ 1) (clip : Bool) :
    user_to_rgba val false clip = some val := by
  obtain ⟨row, t, rfl⟩ := List.exists_cons_of_ne_nil hne
  have hrl : row.length = w := hw row (by simp)
  have hexp : ¬((false = true) ∧ row.length = 3) := by
    rintro ⟨hc, -⟩
    exact Bool.false_ne_true hc
  rw [user_to_rgba]
  rw [if_pos ⟨fun r hr => by rw [hw r hr, hrl], by rw [hrl]; exact h34⟩]
  rw [if_neg hexp, userRangeCheck, if_pos hrange]

/-- A successful `rgba` write with matching row counts: no exception, and
the new buffer is the rowwise column overwrite. -/
theorem set_rgba_ok (s val : List (List ℚ)) (w : ℕ) (hne : val ≠ [])
    (hw : ∀ r ∈ val, r.length = w) (h34 : w = 3 ∨ w = 4)
    (hrange : ∀ r ∈ val, ∀ q ∈ r, 0 ≤ q ∧ q ≤ 1)
    (hlen : val.length = s.length) :
    set_rgba s val = (none, List.zipWith writeRow s val) := by
  rw [set_rgba, user_to_rgba_ok val w hne hw h34 hrange false]
  dsimp only
  rw [if_pos hlen]

/-- Claim C9: every mutation setter validates before committing: whenever
the `rgba` setter (the route for `rgb`, `RGBA`, `hsv`, `value`, ... input,
including wrong shapes and out-of-range channels without `clip`) or the
`hex` setter (malformed hex) raises, the RGBA buffer after the call is
exactly the buffer before it. -/
theorem c9_failed_setter_preserves :
    (∀ (s val : List (List ℚ)), (set_rgba s val).1.isSome = true →
      (set_rgba s val).2 = s) ∧
    (∀ (s : List (List ℚ)) (hexs : List (List Char)),
      (set_hex s hexs).1.isSome = true → (set_hex s hexs).2 = s) := by
  have hr : ∀ (s val : List (List ℚ)), (set_rgba s val).1.isSome = true →
      (set_rgba s val).2 = s := by
    intro s val h
    rw [set_rgba] at h ⊢
    rcases hu : user_to_rgba val false false with _ | rgba
    · rfl
    · dsimp only at h ⊢
      split_ifs at h ⊢ <;> simp_all
  refine ⟨hr, ?_⟩
  intro s hexs h
  rw [set_hex] at h ⊢
  rcases hhx : hex_to_rgba hexs with _ | rgba
  · rfl
  · rw [hhx] at h
    exact hr s rgba h

/-- Claim C9, witness: an out-of-range channel (2 > 1) without clipping
raises, and the buffer is untouched. -/
theorem c9_failed_setter_preserves_witness :
    (set_rgba [[0, 0, 0, 1]] [[2, 0, 0]]).1.isSome = true ∧
    (set_rgba [[0, 0, 0, 1]] [[2, 0, 0]]).2 = [[0, 0, 0, 1]] :=
  ⟨by decide, c9_failed_setter_preserves.1 _ _ (by decide)⟩

/-- Writing a fresh 3-channel front onto a 4-channel row: the HSV view of
the result reads exactly those three channels. -/
theorem hsvOfRow_write3 (row : List ℚ) (c1 c2 c3 : ℚ) :
    hsvOfRow (writeRow row [c1, c2, c3]) = rgb_to_hsv1 (c1, c2, c3) := rfl

/-- Claim C8 (amended): a channel-view write touches only the columns the
view covers.  Setting the `rgb` view (an N×3 write routed through the
`rgba` setter) succeeds and leaves the alpha column untouched; setting the
`value` view rewrites only the first three columns, leaves alpha
untouched, and — whenever the written (clipped) value is nonzero —
preserves the hue and saturation read back through the HSV view (a zero
value collapses the color to black, whose hue and saturation read 0). -/
theorem c8_view_writes :
    (∀ (s val : List (List ℚ)),
      (∀ r ∈ s, r.length = 4) → (∀ r ∈ val, r.length = 3) →
      (∀ r ∈ val, ∀ q ∈ r, 0 ≤ q ∧ q ≤ 1) →
      val.length = s.length → 1 ≤ s.length →
      (set_rgb s val).1 = none ∧
      ∀ i, ((set_rgb s val).2.getD i []).getD 3 0 =
        (s.getD i []).getD 3 0) ∧
    (∀ (s : List (List ℚ)) (val : List ℚ) (i : ℕ),
      (∀ r ∈ s, r.length = 4) →
      (∀ r ∈ s, ∀ q ∈ r, 0 ≤ q ∧ q ≤ 1) →
      val.length = s.length → i < s.length →
      clip01 (val.getD i 0) ≠ 0 →
      (set_value s val).1 = none ∧
      hueOf ((set_value s val).2.getD i []) = hueOf (s.getD i []) ∧
      satOf ((set_value s val).2.getD i []) = satOf (s.getD i []) ∧
      ((set_value s val).2.getD i []).getD 3 0 = (s.getD i []).getD 3 0) := by
  constructor
  · intro s val hrows hval3 hrange hlen hs1
    have hne : val ≠ [] := by
      intro he
      rw [he] at hlen
      simp at hlen
      omega
    rw [set_rgb, set_rgba_ok s val 3 hne hval3 (Or.inl rfl) hrange hlen]
    refine ⟨rfl, ?_⟩
    intro i
    by_cases hi : i < s.length
    · rw [zipWith_getD writeRow s val i hi (by omega) [] [] []]
      exact writeRow_alpha _ _ (hval3 _ (getD_mem_of_lt val i (by omega) []))
    · have hgz : (List.zipWith writeRow s val).getD i [] = [] := by
        apply List.getD_eq_default
        rw [List.length_zipWith]
        omega
      have hsz : s.getD i [] = [] := List.getD_eq_default _ _ (by omega)
      rw [hgz, hsz]
  · intro s val i hrows hrange hlen hi hv
    set rgbList := (List.zipWith (fun t v => (t.1, t.2.1, clip01 v))
        (s.map hsvOfRow) val).map (fun t =>
          let rgb := hsv_to_rgb1 t
          [rgb.1, rgb.2.1, rgb.2.2]) with hrgb
    have hrll : rgbList.length = s.length := by
      rw [hrgb, List.length_map, List.length_zipWith, List.length_map, hlen]
      omega
    have hchan : ∀ j, j < s.length → ∀ k, k < 4 →
        0 ≤ (s.getD j []).getD k 0 ∧ (s.getD j []).getD k 0 ≤ 1 := by
      intro j hj k hk
      have hmem : s.getD j [] ∈ s := getD_mem_of_lt s j hj []
      have hlen4 : (s.getD j []).length = 4 := hrows _ hmem
      exact hrange _ hmem _ (getD_mem_of_lt _ k (by omega) 0)
    have hsvProps : ∀ j, j < s.length →
        0 ≤ (hsvOfRow (s.getD j [])).1 ∧ (hsvOfRow (s.getD j [])).1 < 360 ∧
        0 ≤ (hsvOfRow (s.getD j [])).2.1 ∧
        (hsvOfRow (s.getD j [])).2.1 ≤ 1 ∧
        ((hsvOfRow (s.getD j [])).2.1 = 0 →
          (hsvOfRow (s.getD j [])).1 = 0) := by
      intro j hj
      have h0 := hchan j hj 0 (by norm_num)
      have h1 := hchan j hj 1 (by norm_num)
      have h2 := hchan j hj 2 (by norm_num)
      have hp := rgb_to_hsv1_props _ _ _ h0.1 h0.2 h1.1 h1.2 h2.1 h2.2
      exact ⟨hp.1, hp.2.1, hp.2.2.1, hp.2.2.2.1, hp.2.2.2.2.2.2⟩
    have hRow : ∀ j, j < s.length →
        rgbList.getD j [] =
          [(hsv_to_rgb1 ((hsvOfRow (s.getD j [])).1,
              (hsvOfRow (s.getD j [])).2.1, clip01 (val.getD j 0))).1,
           (hsv_to_rgb1 ((hsvOfRow (s.getD j [])).1,
              (hsvOfRow (s.getD j [])).2.1, clip01 (val.getD j 0))).2.1,
           (hsv_to_rgb1 ((hsvOfRow (s.getD j [])).1,
              (hsvOfRow (s.getD j [])).2.1, clip01 (val.getD j 0))).2.2] := by
      intro j hj
      rw [hrgb]
      rw [getD_map _ _ j
        (by rw [List.length_zipWith, List.length_map]; omega) [] (0, 0, 0)]
      rw [zipWith_getD _ _ _ j (by rw [List.length_map]; omega) (by omega)
        (0, 0, 0) 0 (0, 0, 0)]
      rw [getD_map hsvOfRow s j hj (0, 0, 0) []]
    have hrow3 : ∀ r ∈ rgbList, r.length = 3 := by
      intro r hr
      rw [hrgb] at hr
      obtain ⟨t, -, rfl⟩ := List.mem_map.mp hr
      rfl
    have hrgbrange : ∀ r ∈ rgbList, ∀ q ∈ r, 0 ≤ q ∧ q ≤ 1 := by
      refine forall_mem_of_getD rgbList
        (fun r => ∀ q ∈ r, 0 ≤ q ∧ q ≤ 1) [] ?_
      intro j hj
      rw [hrll] at hj
      rw [hRow j hj]
      have hpj := hsvProps j hj
      have hcb := clip01_mem (val.getD j 0)
      have hr3 := hsv_to_rgb1_range ((hsvOfRow (s.getD j [])).1)
        ((hsvOfRow (s.getD j [])).2.1) (clip01 (val.getD j 0))
        hpj.2.2.1 hpj.2.2.2.1 hcb.1 hcb.2
      intro q hq
      rcases List.mem_cons.mp hq with rfl | hq
      · exact ⟨hr3.1, hr3.2.1⟩
      rcases List.mem_cons.mp hq with rfl | hq
      · exact ⟨hr3.2.2.1, hr3.2.2.2.1⟩
      rcases List.mem_cons.mp hq with rfl | hq
      · exact ⟨hr3.2.2.2.2.1, hr3.2.2.2.2.2⟩
      · exact absurd hq (List.not_mem_nil q)
    have hne3 : rgbList ≠ [] := by
      intro he
      rw [he] at hrll
      simp at hrll
      omega
    have hok : set_value s val = (none, List.zipWith writeRow s rgbList) := by
      show set_rgba s rgbList = _
      exact set_rgba_ok s rgbList 3 hne3 hrow3 (Or.inl rfl) hrgbrange hrll
    rw [hok]
    refine ⟨rfl, ?_⟩
    have hgi : (List.zipWith writeRow s rgbList).getD i [] =
        writeRow (s.getD i []) (rgbList.getD i []) :=
      zipWith_getD writeRow s rgbList i hi (by omega) [] [] []
    have hpi := hsvProps i hi
    have hvpos : 0 < clip01 (val.getD i 0) :=
      lt_of_le_of_ne (clip01_mem _).1 (Ne.symm hv)
    simp only [hueOf, satOf]
    rw [hgi, hRow i hi, hsvOfRow_write3]
    by_cases hsz : (hsvOfRow (s.getD i [])).2.1 = 0
    · -- gray row: hue is 0 and stays 0, saturation stays 0
      have hhz := hpi.2.2.2.2 hsz
      rw [hsz, hhz, hsv_eval_gray]
      dsimp only
      rw [rgb_eval_gray]
      exact ⟨rfl, rfl, writeRow_alpha _ _ rfl⟩
    · have hrt := hsv_rgb_hsv_aux ((hsvOfRow (s.getD i [])).1)
        ((hsvOfRow (s.getD i [])).2.1) (clip01 (val.getD i 0))
        hpi.1 hpi.2.1 (lt_of_le_of_ne hpi.2.2.1 (Ne.symm hsz)) hpi.2.2.2.1
        hvpos
      have hrt' : rgb_to_hsv1
          ((hsv_to_rgb1 ((hsvOfRow (s.getD i [])).1,
              (hsvOfRow (s.getD i [])).2.1, clip01 (val.getD i 0))).1,
           (hsv_to_rgb1 ((hsvOfRow (s.getD i [])).1,
              (hsvOfRow (s.getD i [])).2.1, clip01 (val.getD i 0))).2.1,
           (hsv_to_rgb1 ((hsvOfRow (s.getD i [])).1,
              (hsvOfRow (s.getD i [])).2.1, clip01 (val.getD i 0))).2.2) =
          ((hsvOfRow (s.getD i [])).1, (hsvOfRow (s.getD i [])).2.1,
            clip01 (val.getD i 0)) := hrt
      rw [hrt']
      exact ⟨rfl, rfl, writeRow_alpha _ _ rfl⟩

/-- Claim C8, counterexample to the unqualified claim: the row
`[1, 0, 0, 1]` (pure red) has saturation 1 through the HSV view, yet
setting the `value` view to 0 succeeds and the written buffer reads back
with saturation 0 — the value write also changed the saturation column of
the view. -/
theorem c8_counterexample :
    satOf (([[1, 0, 0, 1]] : List (List ℚ)).getD 0 []) = 1 ∧
    (set_value [[1, 0, 0, 1]] [0]).1 = none ∧
    (set_value [[1, 0, 0, 1]] [0]).2 = [[0, 0, 0, 1]] ∧
    satOf ((set_value [[1, 0, 0, 1]] [0]).2.getD 0 []) = 0 := by
  refine ⟨?_, ?_, ?_, ?_⟩ <;>
    norm_num [set_value, set_rgba, user_to_rgba, userRangeCheck, satOf,
      hsvOfRow, rgb_to_hsv1, hsv_to_rgb1, qmod, clip01, writeRow, min_def,
      abs_of_nonneg, abs_of_neg]

theorem c8_view_writes_witness :
    ((set_rgb [[0, 0, 0, 1]] [[1, 0, 0]]).1 = none ∧
      ∀ i, ((set_rgb [[0, 0, 0, 1]] [[1, 0, 0]]).2.getD i []).getD 3 0 =
        (([[0, 0, 0, 1]] : List (List ℚ)).getD i []).getD 3 0) ∧
    ((set_value [[1, 0, 0, 1]] [1]).1 = none ∧
      hueOf ((set_value [[1, 0, 0, 1]] [1]).2.getD 0 []) =
        hueOf (([[1, 0, 0, 1]] : List (List ℚ)).getD 0 []) ∧
      satOf ((set_value [[1, 0, 0, 1]] [1]).2.getD 0 []) =
        satOf (([[1, 0, 0, 1]] : List (List ℚ)).getD 0 []) ∧
      ((set_value [[1, 0, 0, 1]] [1]).2.getD 0 []).getD 3 0 =
        (([[1, 0, 0, 1]] : List (List ℚ)).getD 0 []).getD 3 0) :=
  ⟨c8_view_writes.1 [[0, 0, 0, 1]] [[1, 0, 0]]
      (by decide) (by decide) (by decide) rfl (by decide),
   c8_view_writes.2 [[1, 0, 0, 1]] [1] 0
      (by decide) (by decide) rfl (by decide) (by decide)⟩

/-! ## GLSL template generation (`_glsl_mix`).  Shader text is a list of
characters; `%.6f` formatting is modeled over exact rationals with
round-half-up at the sixth decimal. -/

/-- The decimal digit character for `n % 10`. -/
def digitChar (n : ℕ) : Char := Char.ofNat (48 + n % 10)

/-- Decimal digits of `n`, most significant first (fuel-based recursion;
`fuel ≥ n` suffices). -/
def natDigitsAux : ℕ → ℕ → List Char
  | 0, _ => []
  | _ + 1, 0 => []
  | fuel + 1, n + 1 =>
    natDigitsAux fuel ((n + 1) / 10) ++ [digitChar (n + 1)]

/-- Decimal representation of a natural number. -/
def natDigits (n : ℕ) : List Char :=
  if n = 0 then ['0'] else natDigitsAux (n + 1) n

/-- Scale to six decimals and round (`'%.6f'`). -/
def round6 (q : ℚ) : ℤ := ⌊q * 1000000 + 1 / 2⌋

/-- Left-pad with zeros to width `w`. -/
def padLeftZeros (s : List Char) (w : ℕ) : List Char :=
  List.replicate (w - s.length) '0' ++ s

/-- Fixed-point rendering with six decimals, as `'%.6f' % q` produces. -/
def formatFixed6 (q : ℚ) : List Char :=
  let n := round6 q
  let a := n.natAbs
  (if n < 0 then ['-'] else []) ++ natDigits (a / 1000000) ++
    ['.'] ++ padLeftZeros (natDigits (a % 1000000)) 6

/-- One branch of the conditional cascade in `_glsl_mix`: branch `i` is
guarded by `t < controls[i+1]`, introduced by `if` when `i = 0`, by a bare
`else` when `i = ncolors - 2`, and by `else if` otherwise; the body
returns `mix($color_i, $color_i+1, t)`. -/
def mixBranch (ncolors : ℕ) (controls : List ℚ) (i : ℕ) : List Char :=
  let ifs :=
    if i = 0 then
      "if (t < ".data ++ formatFixed6 (controls.getD (i + 1) 0) ++ ")".data
    else if i = ncolors - 2 then "else".data
    else
      "else if (t < ".data ++ formatFixed6 (controls.getD (i + 1) 0) ++
        ")".data
  ifs ++ " \x7b\n    return mix($color_".data ++ natDigits i ++
    ", $color_".data ++ natDigits (i + 1) ++ ", t);\n\x7d ".data

/-- `_glsl_mix`: asserts `controls[0], controls[-1] == (0, 1)` and
`ncolors >= 2`; a 2-color map gets a single unconditional `mix` return,
otherwise one cascade branch per bin wrapped in the `colormap` function
shell. -/
def glsl_mix (controls : List ℚ) : Option (List Char) :=
  if controls.headD 0 = 0 ∧ controls.getLastD 0 = 1 then
    if 2 ≤ controls.length then
      some ("vec4 colormap(float t) \x7b\n".data ++
        (if controls.length = 2 then
          "    return mix($color_0, $color_1, t);\n".data
         else
          ((List.range (controls.length - 1)).map
            (mixBranch controls.length controls)).flatten) ++
        "\n\x7d".data)
    else none
  else none

/-- Number of positions of `s` at which the pattern `p` occurs. -/
def occs (p : List Char) : List Char → ℕ
  | [] => 0
  | c :: s => (if List.isPrefixOf p (c :: s) then 1 else 0) + occs p s

/-- The substring `mix(` — one occurrence per generated mix call. -/
def mixPat : List Char := "mix(".data

/-- The substring `if` — one occurrence per conditional branch guard. -/
def ifPat : List Char := "if".data

/-- The substring `else` — one occurrence per fallback introducer. -/
def elsePat : List Char := "else".data

theorem isPrefixOf_cons_false (p : List Char) (c : Char) (r : List Char)
    (hp : p ≠ []) (hc : c ∉ p) : List.isPrefixOf p (c :: r) = false := by
  cases p with
  | nil => exact absurd rfl hp
  | cons ph p2 =>
    have hne : ph ≠ c := fun h => hc (h ▸ List.mem_cons_self ph p2)
    simp [List.isPrefixOf, beq_iff_eq, hne]

theorem isPrefixOf_append_head :
    ∀ (p a : List Char) (c : Char) (r : List Char), p ≠ [] → c ∉ p →
    List.isPrefixOf p (a ++ c :: r) = List.isPrefixOf p a
  | [], _, _, _, hp, _ => absurd rfl hp
  | ph :: p2, [], c, r, _, hc => by
    have hne : ph ≠ c := fun h => hc (h ▸ List.mem_cons_self ph p2)
    simp [List.isPrefixOf, beq_iff_eq, hne]
  | ph :: p2, x :: a2, c, r, _, hc => by
    show (ph == x && List.isPrefixOf p2 (a2 ++ c :: r)) =
      (ph == x && List.isPrefixOf p2 a2)
    cases hp2 : p2 with
    | nil => simp [List.isPrefixOf]
    | cons q q2 =>
      rw [← hp2]
      have hc2 : c ∉ p2 := fun h => hc (List.mem_cons_of_mem ph h)
      rw [isPrefixOf_append_head p2 a2 c r (by rw [hp2]; simp) hc2]

theorem occs_disjoint_prepend :
    ∀ (p t s : List Char), p ≠ [] → (∀ c ∈ t, c ∉ p) →
    occs p (t ++ s) = occs p s
  | _, [], _, _, _ => rfl
  | p, c :: t2, s, hp, hd => by
    show (if List.isPrefixOf p (c :: (t2 ++ s)) then 1 else 0) +
      occs p (t2 ++ s) = occs p s
    rw [isPrefixOf_cons_false p c (t2 ++ s) hp
      (hd c (List.mem_cons_self c t2))]
    rw [occs_disjoint_prepend p t2 s hp
      (fun x hx => hd x (List.mem_cons_of_mem c hx))]
    simp

theorem occs_split :
    ∀ (p a t s : List Char), p ≠ [] → t ≠ [] → (∀ c ∈ t, c ∉ p) →
    occs p (a ++ (t ++ s)) = occs p a + occs p s
  | p, [], t, s, hp, _, hd => by
    rw [List.nil_append, occs_disjoint_prepend p t s hp hd]
    simp [occs]
  | p, x :: a2, t, s, hp, ht, hd => by
    rcases t with _ | ⟨c, t2⟩
    · exact absurd rfl ht
    have h1 : List.isPrefixOf p (x :: (a2 ++ (c :: (t2 ++ s)))) =
        List.isPrefixOf p (x :: a2) := by
      have h2 := isPrefixOf_append_head p (x :: a2) c (t2 ++ s) hp
        (hd c (List.mem_cons_self c t2))
      simpa using h2
    have h3 := occs_split p a2 (c :: t2) s hp (by simp) hd
    simp only [List.cons_append, occs, List.append_eq] at h3 ⊢
    simp only [h1, h3]
    omega

theorem digitChar_mem (n : ℕ) : digitChar n ∈ "0123456789".data := by
  have h : n % 10 = 0 ∨ n % 10 = 1 ∨ n % 10 = 2 ∨ n % 10 = 3 ∨
      n % 10 = 4 ∨ n % 10 = 5 ∨ n % 10 = 6 ∨ n % 10 = 7 ∨ n % 10 = 8 ∨
      n % 10 = 9 := by omega
  rw [digitChar]
  rcases h with h | h | h | h | h | h | h | h | h | h <;> rw [h] <;> decide

theorem natDigitsAux_mem :
    ∀ (fuel n : ℕ) (c : Char), c ∈ natDigitsAux fuel n →
    c ∈ "0123456789".data
  | 0, _, c, h => absurd h (List.not_mem_nil c)
  | _ + 1, 0, c, h => absurd h (List.not_mem_nil c)
  | fuel + 1, n + 1, c, h => by
    simp only [natDigitsAux, List.mem_append, List.mem_singleton] at h
    rcases h with h | h
    · exact natDigitsAux_mem fuel _ c h
    · subst h
      exact digitChar_mem _

theorem natDigits_mem (n : ℕ) (c : Char) (h : c ∈ natDigits n) :
    c ∈ "0123456789".data := by
  rw [natDigits] at h
  by_cases h0 : n = 0
  · rw [if_pos h0, List.mem_singleton] at h
    subst h
    decide
  · rw [if_neg h0] at h
    exact natDigitsAux_mem _ _ c h

/-- Character set of `%.6f` output. -/
def fmtChars : List Char := "0123456789.-".data

theorem digits_sub_fmt (c : Char) (h : c ∈ "0123456789".data) :
    c ∈ fmtChars := by
  fin_cases h <;> decide

theorem formatFixed6_mem (q : ℚ) (c : Char) (h : c ∈ formatFixed6 q) :
    c ∈ fmtChars := by
  simp only [formatFixed6] at h
  rcases List.mem_append.mp h with h | h
  · rcases List.mem_append.mp h with h | h
    · rcases List.mem_append.mp h with h | h
      · by_cases hn : round6 q < 0
        · rw [if_pos hn, List.mem_singleton] at h
          subst h
          decide
        · rw [if_neg hn] at h
          exact absurd h (List.not_mem_nil c)
      · exact digits_sub_fmt c (natDigits_mem _ c h)
    · rw [List.mem_singleton] at h
      subst h
      decide
  · rw [padLeftZeros] at h
    rcases List.mem_append.mp h with h | h
    · rw [List.mem_replicate] at h
      rcases h with ⟨-, h⟩
      subst h
      decide
    · exact digits_sub_fmt c (natDigits_mem _ c h)

theorem formatFixed6_ne_nil (q : ℚ) : formatFixed6 q ≠ [] := by
  intro h
  have h2 := congrArg List.length h
  simp only [formatFixed6, List.length_append, List.length_cons,
    List.length_nil] at h2
  omega

theorem fmt_disj_mixPat (c : Char) (h : c ∈ fmtChars) : c ∉ mixPat := by
  fin_cases h <;> decide

theorem fmt_disj_ifPat (c : Char) (h : c ∈ fmtChars) : c ∉ ifPat := by
  fin_cases h <;> decide

theorem fmt_disj_elsePat (c : Char) (h : c ∈ fmtChars) : c ∉ elsePat := by
  fin_cases h <;> decide

theorem mix3_split (t : List Char) :
    "vec4 colormap(float t) \x7b\nif (t < ".data ++ t ++ ")".data ++
      " \x7b\n    return mix($color_".data ++ ['0'] ++ ", $color_".data ++
      ['1'] ++ ", t);\n\x7d ".data ++
      "else \x7b\n    return mix($color_1, $color_2, t);\n\x7d ".data ++
      "\n\x7d".data =
    "vec4 colormap(float t) \x7b\nif (t < ".data ++
      (t ++ ") \x7b\n    return mix($color_0, $color_1, t);\n\x7d else \x7b\n    return mix($color_1, $color_2, t);\n\x7d \n\x7d".data) := by
  simp only [List.append_assoc]
  rfl

/-- Claim C7: the GLSL template generator `_glsl_mix`, on a 2-stop map
(control points 0 and 1, no interior stop), emits a body that is a single
unconditional `mix` — exactly one `mix(` call, no `if` —; on a 3-stop map
it emits exactly two branches in ascending threshold order: a first
branch guarded by `if (t < c)` on the sole interior threshold `c`, and a
final unconditional `else` fallback, for a total of two `mix(` calls, one
`if` and one `else`. -/
theorem c7_shader_text :
    (∀ controls : List ℚ, controls.length = 2 →
      controls.headD 0 = 0 → controls.getLastD 0 = 1 →
      glsl_mix controls = some
        "vec4 colormap(float t) \x7b\n    return mix($color_0, $color_1, t);\n\n\x7d".data ∧
      ∀ text ∈ glsl_mix controls,
        occs mixPat text = 1 ∧ occs ifPat text = 0) ∧
    (∀ controls : List ℚ, controls.length = 3 →
      controls.headD 0 = 0 → controls.getLastD 0 = 1 →
      glsl_mix controls = some
        ("vec4 colormap(float t) \x7b\nif (t < ".data ++
          formatFixed6 (controls.getD 1 0) ++ ")".data ++
          " \x7b\n    return mix($color_".data ++ ['0'] ++
          ", $color_".data ++ ['1'] ++ ", t);\n\x7d ".data ++
          "else \x7b\n    return mix($color_1, $color_2, t);\n\x7d ".data ++
          "\n\x7d".data) ∧
      ∀ text ∈ glsl_mix controls,
        occs mixPat text = 2 ∧ occs ifPat text = 1 ∧
          occs elsePat text = 1) := by
  constructor
  · intro controls hlen hh hl
    obtain ⟨a, b, rfl⟩ : ∃ a b, controls = [a, b] := by
      rcases controls with _ | ⟨a, _ | ⟨b, rest⟩⟩
      · simp at hlen
      · simp at hlen
      · refine ⟨a, b, ?_⟩
        have hr : rest.length = 0 := by
          simp only [List.length_cons] at hlen
          omega
        rw [List.eq_nil_of_length_eq_zero hr]
    have ha : a = 0 := by simpa using hh
    have hb : b = 1 := by simpa [List.getLastD] using hl
    subst ha hb
    have h2 : glsl_mix [(0 : ℚ), 1] = some
        "vec4 colormap(float t) \x7b\n    return mix($color_0, $color_1, t);\n\n\x7d".data :=
      rfl
    refine ⟨h2, ?_⟩
    intro text htext
    rw [h2] at htext
    have he : "vec4 colormap(float t) \x7b\n    return mix($color_0, $color_1, t);\n\n\x7d".data
        = text := by
      simpa using htext
    subst he
    exact ⟨by decide, by decide⟩
  · intro controls hlen hh hl
    obtain ⟨a, b, c, rfl⟩ : ∃ a b c, controls = [a, b, c] := by
      rcases controls with _ | ⟨a, _ | ⟨b, _ | ⟨c, rest⟩⟩⟩
      · simp at hlen
      · simp at hlen
      · simp at hlen
      · refine ⟨a, b, c, ?_⟩
        have hr : rest.length = 0 := by
          simp only [List.length_cons] at hlen
          omega
        rw [List.eq_nil_of_length_eq_zero hr]
    have ha : a = 0 := by simpa using hh
    have hc : c = 1 := by simpa [List.getLastD] using hl
    subst ha hc
    have h3 : glsl_mix [(0 : ℚ), b, 1] = some
        ("vec4 colormap(float t) \x7b\nif (t < ".data ++
          formatFixed6 (([(0 : ℚ), b, 1]).getD 1 0) ++ ")".data ++
          " \x7b\n    return mix($color_".data ++ ['0'] ++
          ", $color_".data ++ ['1'] ++ ", t);\n\x7d ".data ++
          "else \x7b\n    return mix($color_1, $color_2, t);\n\x7d ".data ++
          "\n\x7d".data) := rfl
    refine ⟨h3, ?_⟩
    intro text htext
    rw [h3] at htext
    have he : "vec4 colormap(float t) \x7b\nif (t < ".data ++
          formatFixed6 (([(0 : ℚ), b, 1]).getD 1 0) ++ ")".data ++
          " \x7b\n    return mix($color_".data ++ ['0'] ++
          ", $color_".data ++ ['1'] ++ ", t);\n\x7d ".data ++
          "else \x7b\n    return mix($color_1, $color_2, t);\n\x7d ".data ++
          "\n\x7d".data = text := by
      simpa using htext
    subst he
    rw [mix3_split (formatFixed6 (([(0 : ℚ), b, 1]).getD 1 0))]
    refine ⟨?_, ?_, ?_⟩
    · rw [occs_split mixPat _ _ _ (by decide) (formatFixed6_ne_nil _)
        (fun x hx => fmt_disj_mixPat x (formatFixed6_mem _ x hx))]
      decide
    · rw [occs_split ifPat _ _ _ (by decide) (formatFixed6_ne_nil _)
        (fun x hx => fmt_disj_ifPat x (formatFixed6_mem _ x hx))]
      decide
    · rw [occs_split elsePat _ _ _ (by decide) (formatFixed6_ne_nil _)
        (fun x hx => fmt_disj_elsePat x (formatFixed6_mem _ x hx))]
      decide

theorem c7_shader_text_witness :
    (glsl_mix [(0 : ℚ), 1] = some
        "vec4 colormap(float t) \x7b\n    return mix($color_0, $color_1, t);\n\n\x7d".data ∧
      ∀ text ∈ glsl_mix [(0 : ℚ), 1],
        occs mixPat text = 1 ∧ occs ifPat text = 0) ∧
    (glsl_mix [(0 : ℚ), 1/2, 1] = some
        ("vec4 colormap(float t) \x7b\nif (t < ".data ++
          formatFixed6 (([(0 : ℚ), 1/2, 1]).getD 1 0) ++ ")".data ++
          " \x7b\n    return mix($color_".data ++ ['0'] ++
          ", $color_".data ++ ['1'] ++ ", t);\n\x7d ".data ++
          "else \x7b\n    return mix($color_1, $color_2, t);\n\x7d ".data ++
          "\n\x7d".data) ∧
      ∀ text ∈ glsl_mix [(0 : ℚ), 1/2, 1],
        occs mixPat text = 2 ∧ occs ifPat text = 1 ∧
          occs elsePat text = 1) :=
  ⟨c7_shader_text.1 [0, 1] rfl rfl rfl,
   c7_shader_text.2 [0, 1/2, 1] rfl rfl rfl⟩

end Vispy
